import Mathlib

/-!
# Verification of the Biscuit token core (`src/token/mod.rs`)

This file gives a shallow embedding of the Biscuit token module and proves
the behavioural claims about world seeding, caveat checking, block append,
deserialization and the authority/ambient privilege gate.

The file `src/token/mod.rs` is embedded directly.  Its collaborators
(the `datalog` module with `SymbolTable`, `Fact`, `Rule`, `Caveat`, `World`,
the cryptographic containers, and the wire codec) are not part of the
source under scrutiny; they are modelled from the specification
(spec.md §3, §4.1, §4.2, §4.3, §4.7) as noted on each definition.
-/

namespace Token

/-! ## Datalog data model (collaborator, modelled from the spec) -/

/-- Modelled from the spec (§3 "Term"): tagged variant
`Symbol(id) | Variable(id) | Integer(i64) | String | Date(u64) | Bytes`.
The spec writes `String(id)` for an interned string; the string is carried
directly here so that the string constraints of §4.2 (prefix/suffix) are
expressible without threading the symbol table through the evaluator.
Machine integers are modelled as `Int`/`Nat`; no arithmetic in the module
can overflow them. -/
inductive ID where
  | Symbol (id : Nat)
  | Variable (id : Nat)
  | Integer (i : Int)
  | Str (s : String)
  | Date (d : Nat)
  | Bytes (b : List Nat)
deriving DecidableEq, Repr

/-- Modelled from the spec (§3 "Predicate"): a `(name-symbol-id, term-sequence)`
tuple.  The field holding the terms is called `ids` as in the source
(`fact.predicate.ids[0]`). -/
structure Predicate where
  name : Nat
  ids : List ID
deriving DecidableEq, Repr

/-- Modelled from the spec (§3 "Fact"): a ground predicate. -/
structure Fact where
  predicate : Predicate
deriving DecidableEq, Repr

/-- Modelled from the spec (§4.2 "Constraints", integer kind):
`==, !=, <, <=, >, >=, in {set}, not in {set}`. -/
inductive IntConstraint where
  | equal (i : Int)
  | notEqual (i : Int)
  | lessThan (i : Int)
  | lessOrEqual (i : Int)
  | greaterThan (i : Int)
  | greaterOrEqual (i : Int)
  | inSet (s : List Int)
  | notInSet (s : List Int)
deriving DecidableEq, Repr

/-- Modelled from the spec (§4.2 "Constraints", string kind): equality,
prefix, suffix, set membership.  The regex-match constraint of the spec is
outside this embedding (regular-expression matching is an opaque
collaborator); no claim exercises it. -/
inductive StrConstraint where
  | equal (s : String)
  | startsWith (s : String)
  | endsWith (s : String)
  | inSet (s : List String)
deriving DecidableEq, Repr

/-- Modelled from the spec (§4.2 "Constraints", date kind): `before`, `after`
against absolute epoch seconds. -/
inductive DateConstraint where
  | before (d : Nat)
  | after (d : Nat)
deriving DecidableEq, Repr

/-- Modelled from the spec (§4.2 "Constraints"): symbol set membership. -/
inductive SymbolConstraint where
  | inSet (s : List Nat)
deriving DecidableEq, Repr

/-- Modelled from the spec (§4.2 "Constraints"): bytes set membership. -/
inductive BytesConstraint where
  | inSet (s : List (List Nat))
deriving DecidableEq, Repr

/-- Modelled from the spec (§4.2): a constraint kind, by term kind. -/
inductive ConstraintKind where
  | int (c : IntConstraint)
  | str (c : StrConstraint)
  | date (c : DateConstraint)
  | symbol (c : SymbolConstraint)
  | bytes (c : BytesConstraint)
deriving DecidableEq, Repr

/-- Modelled from the spec (§3 "Rule"): a variable-scoped filter; `id` is the
variable the constraint applies to. -/
structure Constraint where
  id : Nat
  kind : ConstraintKind
deriving DecidableEq, Repr

/-- Modelled from the spec (§3 "Rule"): `head :- body, constraints`. -/
structure Rule where
  head : Predicate
  body : List Predicate
  constraints : List Constraint
deriving DecidableEq, Repr

/-- Modelled from the spec (§3 "Caveat"): a disjunction of rules (queries). -/
structure Caveat where
  queries : List Rule
deriving DecidableEq, Repr

/-! ## Symbol table (collaborator, modelled from the spec §4.1) -/

/-- Modelled from the spec (§3 "Symbol table"): an append-only ordered
sequence of strings; the id of a symbol is its position. -/
structure SymbolTable where
  symbols : List String
deriving DecidableEq, Repr

namespace SymbolTable

/-- Modelled from the spec (§4.1): fresh empty table. -/
def new : SymbolTable := ⟨[]⟩

/-- Modelled from the spec (§4.1): `get(s)` returns the position of `s`. -/
def get (t : SymbolTable) (s : String) : Option Nat :=
  t.symbols.findIdx? (· == s)

/-- Modelled from the spec (§4.1): `insert(s)` returns the existing id if
present, else appends and returns the new id. -/
def insert (t : SymbolTable) (s : String) : SymbolTable × Nat :=
  match t.symbols.findIdx? (· == s) with
  | some i => (t, i)
  | none => (⟨t.symbols ++ [s]⟩, t.symbols.length)

/-- Modelled from the spec (§4.1): `extend(other)` concatenates the strings
of `other` (the disjointness precondition is checked by the callers). -/
def extend (t other : SymbolTable) : SymbolTable :=
  ⟨t.symbols ++ other.symbols⟩

end SymbolTable

/-- The source builds `HashSet`s of the two symbol lists and calls
`is_disjoint`; this is that set-disjointness test. -/
def symbolsDisjoint (a b : SymbolTable) : Prop :=
  ∀ s ∈ a.symbols, s ∉ b.symbols

instance (a b : SymbolTable) : Decidable (symbolsDisjoint a b) :=
  inferInstanceAs (Decidable (∀ s ∈ a.symbols, s ∉ b.symbols))

/-- Embeds `default_symbol_table` (src/token/mod.rs lines 20-31): the seven
predefined symbols inserted in order into a fresh table. -/
def default_symbol_table : SymbolTable :=
  ["authority", "ambient", "resource", "operation", "right",
   "current_time", "revocation_id"].foldl (fun t s => (t.insert s).1)
    SymbolTable.new

/-! ## Evaluator (collaborator, modelled from the spec §4.2) -/

/-- A variable-to-term substitution accumulated while matching a rule body. -/
abbrev Subst := List (Nat × ID)

/-- Modelled from the spec (§4.2 "Rule matching"): unify one body term with
one fact term under the current substitution; a variable binds (consistently),
a ground term must be equal. -/
def matchID (s : Subst) : ID → ID → Option Subst
  | ID.Variable v, t =>
    match s.lookup v with
    | some t2 => if t2 = t then some s else none
    | none => some ((v, t) :: s)
  | p, t => if p = t then some s else none

/-- Modelled from the spec (§4.2): unify a body predicate with a fact. -/
def matchPredicate (s : Subst) (p : Predicate) (f : Predicate) : Option Subst :=
  if p.name = f.name ∧ p.ids.length = f.ids.length then
    (p.ids.zip f.ids).foldlM (fun s2 pt => matchID s2 pt.1 pt.2) s
  else none

/-- Modelled from the spec (§4.2): unify each body predicate against the
facts in sequence, accumulating substitutions (backtracking = list of all
branches). -/
def matchBody (facts : List Fact) (s : Subst) : List Predicate → List Subst
  | [] => [s]
  | p :: rest =>
    (facts.filterMap (fun f => matchPredicate s p f.predicate)).flatMap
      (fun s2 => matchBody facts s2 rest)

/-- Modelled from the spec (§4.2): evaluate an integer constraint. -/
def IntConstraint.check : IntConstraint → Int → Bool
  | .equal j, i => i == j
  | .notEqual j, i => i != j
  | .lessThan j, i => i < j
  | .lessOrEqual j, i => i ≤ j
  | .greaterThan j, i => i > j
  | .greaterOrEqual j, i => i ≥ j
  | .inSet s, i => s.contains i
  | .notInSet s, i => !s.contains i

/-- Modelled from the spec (§4.2): evaluate a string constraint. -/
def StrConstraint.check : StrConstraint → String → Bool
  | .equal p, s => s == p
  | .startsWith p, s => String.startsWith s p
  | .endsWith p, s => String.endsWith s p
  | .inSet set, s => set.contains s

/-- Modelled from the spec (§4.2): evaluate a date constraint. -/
def DateConstraint.check : DateConstraint → Nat → Bool
  | .before j, d => d ≤ j
  | .after j, d => d ≥ j

/-- Modelled from the spec (§4.2): evaluate a constraint against the term
bound to its variable; a kind mismatch or an unbound variable fails. -/
def checkConstraint (s : Subst) (c : Constraint) : Bool :=
  match s.lookup c.id with
  | none => false
  | some t =>
    match c.kind, t with
    | .int ic, ID.Integer i => ic.check i
    | .str sc, ID.Str str => sc.check str
    | .date dc, ID.Date d => dc.check d
    | .symbol (.inSet set), ID.Symbol id => set.contains id
    | .bytes (.inSet set), ID.Bytes b => set.contains b
    | _, _ => false

/-- Modelled from the spec (§4.2): apply a substitution to a term. -/
def substID (s : Subst) : ID → ID
  | ID.Variable v => (s.lookup v).getD (ID.Variable v)
  | t => t

/-- Modelled from the spec (§4.2): instantiate a rule head. -/
def substPredicate (s : Subst) (p : Predicate) : Predicate :=
  { p with ids := p.ids.map (substID s) }

/-- Modelled from the spec (§4.2 "Evaluator (World)"): facts (a deduplicated
set, modelled as a duplicate-free list in insertion order) and an ordered
list of rules. -/
structure World where
  facts : List Fact
  rules : List Rule
deriving DecidableEq, Repr

namespace World

/-- Modelled from the spec (§4.2): a fresh empty world. -/
def new : World := ⟨[], []⟩

/-- Set insertion into the fact set (the source uses a `HashSet`). -/
def insertFact (w : World) (f : Fact) : World :=
  if f ∈ w.facts then w else { w with facts := w.facts ++ [f] }

/-- Modelled from the spec (§4.2): `query_rule(rule)` returns all head
instantiations over the current facts without mutating the world. -/
def query_rule (w : World) (r : Rule) : List Fact :=
  ((matchBody w.facts [] r.body).filter
      (fun s => r.constraints.all (checkConstraint s))).map
    (fun s => { predicate := substPredicate s r.head })

/-- One saturation pass: all head instantiations producible from the current
facts, inserted into the set. -/
def round (w : World) : World :=
  (w.rules.flatMap (fun r => w.query_rule r)).foldl insertFact w

/-- Fuelled saturation loop; stops when a full pass adds nothing. -/
def runAux : Nat → World → World
  | 0, w => w
  | n + 1, w =>
    let w2 := w.round
    if w2.facts = w.facts then w else runAux n w2

/-- Modelled from the spec (§4.2): `run()` saturates, capped at a safe bound
(spec suggests 100 rounds); the token module calls it for effect only and
cannot observe the cap, so the world is returned as-is at fuel exhaustion. -/
def run (w : World) : World := runAux 100 w

end World

/-! ## Blocks and errors (src/token/mod.rs) -/

/-- Embeds `Block` (src/token/mod.rs lines 639-654): position, local symbol
table, facts, rules, caveats and optional context. -/
structure Block where
  index : Nat
  symbols : SymbolTable
  facts : List Fact
  rules : List Rule
  caveats : List Caveat
  context : Option String
deriving DecidableEq, Repr

/-- Embeds `error::FailedCaveat` (the `error` module is a declaration-only
collaborator): either a block caveat failure `Block{block_id, caveat_id,
rule}` or a verifier caveat failure `Verifier{caveat_id, rule}`.  The source
stores the caveat pretty-printed through the symbol table; the caveat value
itself is carried here, message rendering being out of scope. -/
inductive FailedCaveat where
  | Block (block_id : Nat) (caveat_id : Nat) (rule : Caveat)
  | Verifier (caveat_id : Nat) (rule : Caveat)
deriving DecidableEq, Repr

/-- Embeds `error::Logic`: the logic-level errors produced while seeding and
checking the world.  As for `FailedCaveat`, the offending fact or rule is
carried in place of its printed form. -/
inductive Logic where
  | InvalidAuthorityFact (f : Fact)
  | InvalidBlockFact (block_id : Nat) (f : Fact)
  | InvalidBlockRule (block_id : Nat) (r : Rule)
  | FailedCaveats (errors : List FailedCaveat)
deriving DecidableEq, Repr

/-- Embeds `error::Token`: the token-level errors of the module. -/
inductive TokenError where
  | InternalError
  | InvalidAuthorityIndex (got : Nat)
  | InvalidBlockIndex (expected : Nat) (found : Nat)
  | SymbolTableOverlap
  | Sealed
  | FailedLogic (e : Logic)
deriving DecidableEq, Repr

/-- Result of running code that may also panic (the Rust `unwrap()` /
out-of-bounds indexing paths), alongside returning an error or a value. -/
inductive PResult (ε α : Type) where
  | panic
  | error (e : ε)
  | ok (a : α)
deriving DecidableEq, Repr

/-! ## Containers (collaborators, modelled from the spec §4.3, §4.4, §4.7) -/

/-- Modelled from the spec (§4.3): an ephemeral keypair; only the public
part is observable by the token module. -/
structure KeyPair where
  public : Nat
deriving DecidableEq, Repr

/-- Modelled from the spec (§4.3 and §4.7): the signed container holds the
per-block message bytes, the public keys, and the aggregated signature.  The
wire codec of §4.7 is an opaque round-tripping collaborator, so block bytes
are represented by the blocks themselves, and the aggregated signature by
the list of (key, message) pairs it attests. -/
structure SerializedBiscuit where
  authority : Block
  blocks : List Block
  keys : List Nat
  signature : List (Nat × Block)
deriving DecidableEq, Repr

namespace SerializedBiscuit

/-- Modelled from the spec (§4.3): `new` produces a container over the
authority block alone, signed with the root key. -/
def new (root : KeyPair) (authority : Block) : SerializedBiscuit :=
  { authority := authority
    blocks := []
    keys := [root.public]
    signature := [(root.public, authority)] }

/-- Modelled from the spec (§4.3): `append` adds the new block bytes, the
new public key, and extends the aggregated signature. -/
def append (c : SerializedBiscuit) (keypair : KeyPair) (block : Block) :
    SerializedBiscuit :=
  { c with
    blocks := c.blocks ++ [block]
    keys := c.keys ++ [keypair.public]
    signature := c.signature ++ [(keypair.public, block)] }

end SerializedBiscuit

/-- Modelled from the spec (§4.4): the sealed container holds the block
bytes plus a MAC over them; the MAC and the shared secret are handled
entirely by the (out of scope) crypto collaborator at decode time. -/
structure SealedBiscuit where
  authority : Block
  blocks : List Block
deriving DecidableEq, Repr

/-! ## The token (src/token/mod.rs) -/

/-- Embeds `Biscuit` (src/token/mod.rs lines 68-74). -/
structure Biscuit where
  authority : Block
  blocks : List Block
  symbols : SymbolTable
  container : Option SerializedBiscuit
deriving DecidableEq, Repr

/-- Modelled from the spec (§4.6): the verifier accumulates ambient facts,
rules, caveats and named queries around a token before `verify()`. -/
structure Verifier where
  token : Biscuit
  facts : List Fact
  rules : List Rule
  caveats : List Caveat
  queries : List (String × Rule)
deriving DecidableEq, Repr

/-- Modelled from the spec (§4.6): `Verifier::new` wraps the token with
empty accumulators (its `Result` type in the declaration is retained). -/
def Verifier.new (t : Biscuit) : Except Logic Verifier :=
  .ok { token := t, facts := [], rules := [], caveats := [], queries := [] }

namespace Biscuit

/-- Embeds `Biscuit::new` (src/token/mod.rs lines 82-114): reject a
non-disjoint symbol table, reject a non-zero authority index, merge the
authority symbols, sign the authority block into a fresh container.
Randomness feeds only the abstracted signature and is dropped. -/
def new (root : KeyPair) (symbols : SymbolTable) (authority : Block) :
    Except TokenError Biscuit :=
  if ¬ symbolsDisjoint symbols authority.symbols then
    .error .SymbolTableOverlap
  else if authority.index ≠ 0 then
    .error (.InvalidAuthorityIndex authority.index)
  else
    .ok { authority := authority
          blocks := []
          symbols := symbols.extend authority.symbols
          container := some (SerializedBiscuit.new root authority) }

/-- Decoded-block index validation shared by the two deserialization paths
(src/token/mod.rs lines 140-160 and 207-227): the running counter starts at
1 and each decoded block must carry it. -/
def decodeBlocks (index : Nat) : List Block → Except TokenError (List Block)
  | [] => .ok []
  | b :: rest =>
    if b.index ≠ index then
      .error (.InvalidBlockIndex index b.index)
    else
      (decodeBlocks (index + 1) rest).map (b :: ·)

/-- Embeds `Biscuit::from_with_symbols` (src/token/mod.rs lines 122-180)
from the point where the wire codec (an opaque collaborator, §4.7) has
yielded the container: validate `authority.index == 0`, validate the block
indices `1, 2, …` in order, then extend the supplied table with the
authority symbols followed by each block's symbols. -/
def from_with_symbols (container : SerializedBiscuit) (symbols : SymbolTable) :
    Except TokenError Biscuit :=
  let authority := container.authority
  if authority.index ≠ 0 then
    .error (.InvalidAuthorityIndex authority.index)
  else
    match decodeBlocks 1 container.blocks with
    | .error e => .error e
    | .ok blocks =>
      let symbols := blocks.foldl (fun s b => s.extend b.symbols)
        (symbols.extend authority.symbols)
      .ok { authority := authority
            blocks := blocks
            symbols := symbols
            container := some container }

/-- Embeds `Biscuit::from_sealed_with_symbols` (src/token/mod.rs lines
188-247): identical decoding discipline, but the resulting token carries no
signed container. -/
def from_sealed_with_symbols (container : SealedBiscuit)
    (symbols : SymbolTable) : Except TokenError Biscuit :=
  let authority := container.authority
  if authority.index ≠ 0 then
    .error (.InvalidAuthorityIndex authority.index)
  else
    match decodeBlocks 1 container.blocks with
    | .error e => .error e
    | .ok blocks =>
      let symbols := blocks.foldl (fun s b => s.extend b.symbols)
        (symbols.extend authority.symbols)
      .ok { authority := authority
            blocks := blocks
            symbols := symbols
            container := none }

/-- Embeds `Biscuit::to_vec` (src/token/mod.rs lines 250-255): a token
without a signed container cannot be serialized; the wire bytes of §4.7 are
represented by the container itself. -/
def to_vec (t : Biscuit) : Except TokenError SerializedBiscuit :=
  match t.container with
  | none => .error .InternalError
  | some c => .ok c

/-- Embeds `Biscuit::verify_sealed` (src/token/mod.rs lines 298-304). -/
def verify_sealed (t : Biscuit) : Except TokenError Verifier :=
  if t.container.isSome then
    .error .InternalError
  else
    (Verifier.new t).mapError .FailedLogic

/-- Embeds the authority-fact loop of `Biscuit::generate_world`
(src/token/mod.rs lines 312-320): a fact whose first term is the ambient
symbol aborts with `InvalidAuthorityFact`; `fact.predicate.ids[0]` panics on
an empty term list. -/
def seedAuthorityFacts (ambient_index : Nat) :
    List Fact → World → PResult Logic World
  | [], w => .ok w
  | f :: rest, w =>
    match f.predicate.ids.head? with
    | none => .panic
    | some t0 =>
      if t0 = ID.Symbol ambient_index then
        .error (.InvalidAuthorityFact f)
      else
        seedAuthorityFacts ambient_index rest (w.insertFact f)

/-- Embeds the per-block body of `Biscuit::generate_world`
(src/token/mod.rs lines 326-353): block facts must not carry the authority
or ambient tag, block rule heads must not either; `i` is the position of
the block in the `blocks` vector (0-based, as produced by `enumerate()`). -/
def seedBlockFacts (authority_index ambient_index i : Nat) :
    List Fact → World → PResult Logic World
  | [], w => .ok w
  | f :: rest, w =>
    match f.predicate.ids.head? with
    | none => .panic
    | some t0 =>
      if t0 = ID.Symbol authority_index ∨ t0 = ID.Symbol ambient_index then
        .error (.InvalidBlockFact i f)
      else
        seedBlockFacts authority_index ambient_index i rest (w.insertFact f)

/-- Embeds the rule loop of the per-block body of `Biscuit::generate_world`
(src/token/mod.rs lines 341-352). -/
def seedBlockRules (authority_index ambient_index i : Nat) :
    List Rule → World → PResult Logic World
  | [], w => .ok w
  | r :: rest, w =>
    match r.head.ids.head? with
    | none => .panic
    | some t0 =>
      if t0 = ID.Symbol authority_index ∨ t0 = ID.Symbol ambient_index then
        .error (.InvalidBlockRule i r)
      else
        seedBlockRules authority_index ambient_index i rest
          { w with rules := w.rules ++ [r] }

/-- The `for (i, block) in self.blocks.iter().enumerate()` loop of
`Biscuit::generate_world`, with `i` the running 0-based position. -/
def seedBlocks (authority_index ambient_index i : Nat) :
    List Block → World → PResult Logic World
  | [], w => .ok w
  | b :: rest, w =>
    match seedBlockFacts authority_index ambient_index i b.facts w with
    | .panic => .panic
    | .error e => .error e
    | .ok w2 =>
      match seedBlockRules authority_index ambient_index i b.rules w2 with
      | .panic => .panic
      | .error e => .error e
      | .ok w3 => seedBlocks authority_index ambient_index (i + 1) rest w3

/-- Embeds `Biscuit::generate_world` (src/token/mod.rs lines 306-358):
look up the authority and ambient symbol ids (`unwrap()` panics when the
table lacks them), seed the authority facts and rules, seed each block
under the privilege gate, and saturate. -/
def generate_world (t : Biscuit) (symbols : SymbolTable) :
    PResult Logic World :=
  match symbols.get "authority", symbols.get "ambient" with
  | some authority_index, some ambient_index =>
    match seedAuthorityFacts ambient_index t.authority.facts World.new with
    | .panic => .panic
    | .error e => .error e
    | .ok w =>
      let w := { w with rules := w.rules ++ t.authority.rules }
      match seedBlocks authority_index ambient_index 0 t.blocks w with
      | .panic => .panic
      | .error e => .error e
      | .ok w2 => .ok w2.run
  | _, _ => .panic

/-- Embeds `Biscuit::append` (src/token/mod.rs lines 513-561) from the
point where the (out of scope) block builder has produced the block:
sealed-token rejection, symbol-table disjointness, index discipline, then a
new token value with the block appended and the symbols merged; the
original token value is untouched (the embedding is pure). -/
def append (t : Biscuit) (keypair : KeyPair) (block : Block) :
    Except TokenError Biscuit :=
  if t.container.isNone then
    .error .Sealed
  else if ¬ symbolsDisjoint t.symbols block.symbols then
    .error .SymbolTableOverlap
  else if block.index ≠ 1 + t.blocks.length then
    .error (.InvalidBlockIndex (1 + t.blocks.length) block.index)
  else
    match t.container with
    | none => .error .Sealed
    | some c =>
      .ok { authority := t.authority
            blocks := t.blocks ++ [block]
            symbols := t.symbols.extend block.symbols
            container := some (c.append keypair block) }

/-- Embeds the inner query loop of each caveat in `Biscuit::check`
(src/token/mod.rs lines 417-425 and analogues): a caveat succeeds as soon
as one of its queries yields a non-empty result. -/
def caveatSuccessful (world : World) (c : Caveat) : Bool :=
  c.queries.any (fun q => !(world.query_rule q).isEmpty)

/-- The satisfaction property as the spec words it (§3 "Caveat"): at least
one query yields a non-empty match set against the current world. -/
def caveatSatisfied (world : World) (c : Caveat) : Prop :=
  ∃ q ∈ c.queries, world.query_rule q ≠ []

/-- Embeds the authority-caveat loop of `Biscuit::check` (src/token/mod.rs
lines 416-434): each failed caveat is reported with `block_id = 0` and its
enumeration position, starting at `i`. -/
def authorityCaveatErrors (world : World) :
    Nat → List Caveat → List FailedCaveat
  | _, [] => []
  | i, c :: rest =>
    if caveatSuccessful world c then
      authorityCaveatErrors world (i + 1) rest
    else
      FailedCaveat.Block 0 i c :: authorityCaveatErrors world (i + 1) rest

/-- Embeds the verifier-caveat loop of `Biscuit::check` (src/token/mod.rs
lines 437-454). -/
def verifierCaveatErrors (world : World) :
    Nat → List Caveat → List FailedCaveat
  | _, [] => []
  | i, c :: rest =>
    if caveatSuccessful world c then
      verifierCaveatErrors world (i + 1) rest
    else
      FailedCaveat.Verifier i c :: verifierCaveatErrors world (i + 1) rest

/-- Embeds the inner caveat loop over one block in `Biscuit::check`
(src/token/mod.rs lines 457-475): failures carry the enclosing block's
enumeration position as `block_id`. -/
def blockCaveatErrors (world : World) (block_id : Nat) :
    Nat → List Caveat → List FailedCaveat
  | _, [] => []
  | j, c :: rest =>
    if caveatSuccessful world c then
      blockCaveatErrors world block_id (j + 1) rest
    else
      FailedCaveat.Block block_id j c ::
        blockCaveatErrors world block_id (j + 1) rest

/-- Embeds the `for (i, block) in self.blocks.iter().enumerate()` caveat
loop of `Biscuit::check` (src/token/mod.rs lines 456-476); `i` is the
running 0-based position in the `blocks` vector. -/
def blocksCaveatErrors (world : World) :
    Nat → List Block → List FailedCaveat
  | _, [] => []
  | i, b :: rest =>
    blockCaveatErrors world i 0 b.caveats ++
      blocksCaveatErrors world (i + 1) rest

/-- Embeds steps 1-2 of `Biscuit::check` after world seeding
(src/token/mod.rs lines 399-407): insert the ambient facts, push the
ambient rules, saturate again. -/
def buildCheckWorld (w0 : World) (ambient_facts : List Fact)
    (ambient_rules : List Rule) : World :=
  let w1 := ambient_facts.foldl World.insertFact w0
  let w2 := { w1 with rules := w1.rules ++ ambient_rules }
  w2.run

/-- Embeds `Biscuit::check` (src/token/mod.rs lines 389-489): seed the
world, inject the ambient data, evaluate every caveat of the authority
block, of the verifier, and of every appended block, accumulating the
failures, then answer the named queries; fail with `FailedCaveats` when any
caveat failed, otherwise return the query results.  The query map is
modelled as an association list (iteration order of the source `HashMap` is
unspecified). -/
def check (t : Biscuit) (symbols : SymbolTable) (ambient_facts : List Fact)
    (ambient_rules : List Rule) (verifier_caveats : List Caveat)
    (queries : List (String × Rule)) :
    PResult Logic (List (String × List Fact)) :=
  match t.generate_world symbols with
  | .panic => .panic
  | .error e => .error e
  | .ok w0 =>
    let world := buildCheckWorld w0 ambient_facts ambient_rules
    let errors :=
      authorityCaveatErrors world 0 t.authority.caveats ++
      verifierCaveatErrors world 0 verifier_caveats ++
      blocksCaveatErrors world 0 t.blocks
    let query_results := queries.map (fun p => (p.1, world.query_rule p.2))
    if errors.isEmpty then
      .ok query_results
    else
      .error (.FailedCaveats errors)

/-- All the caveats a `check` call evaluates, in evaluation-group order:
the authority block's, the verifier's, then each appended block's. -/
def allCaveats (t : Biscuit) (verifier_caveats : List Caveat) : List Caveat :=
  t.authority.caveats ++ verifier_caveats ++ t.blocks.flatMap (·.caveats)

end Biscuit

/-! ## Tagging predicates for the privilege gate -/

/-- The first term of the fact's predicate is the symbol with id `idx`. -/
def factTagged (idx : Nat) (f : Fact) : Prop :=
  f.predicate.ids.head? = some (ID.Symbol idx)

/-- The first term of the rule's head is the symbol with id `idx`. -/
def ruleTagged (idx : Nat) (r : Rule) : Prop :=
  r.head.ids.head? = some (ID.Symbol idx)

instance (idx : Nat) (f : Fact) : Decidable (factTagged idx f) :=
  inferInstanceAs (Decidable (_ = _))

instance (idx : Nat) (r : Rule) : Decidable (ruleTagged idx r) :=
  inferInstanceAs (Decidable (_ = _))

/-- No fact of the block carries the authority or ambient tag, and no rule
head either: the block passes the privilege gate of `generate_world`. -/
def cleanBlock (ai mi : Nat) (b : Block) : Prop :=
  (∀ f ∈ b.facts, ¬ factTagged ai f ∧ ¬ factTagged mi f) ∧
  (∀ r ∈ b.rules, ¬ ruleTagged ai r ∧ ¬ ruleTagged mi r)

instance (ai mi : Nat) (b : Block) : Decidable (cleanBlock ai mi b) :=
  inferInstanceAs (Decidable (_ ∧ _))

/-- Every fact of the block has a non-empty term list and every rule head
too, so the `ids[0]` accesses of `generate_world` cannot panic on it. -/
def nonemptyIdsBlock (b : Block) : Prop :=
  (∀ f ∈ b.facts, f.predicate.ids ≠ []) ∧ (∀ r ∈ b.rules, r.head.ids ≠ [])

instance (b : Block) : Decidable (nonemptyIdsBlock b) :=
  inferInstanceAs (Decidable (_ ∧ _))

/-! ## Concrete tokens used as counterexamples and witnesses -/

/-- An authority block with no content. -/
def authEmpty : Block :=
  { index := 0, symbols := ⟨[]⟩, facts := [], rules := [], caveats := [],
    context := none }

/-- A token with an empty authority block and no appended blocks. -/
def tokEmpty : Biscuit :=
  { authority := authEmpty, blocks := [],
    symbols := default_symbol_table,
    container := some (SerializedBiscuit.new ⟨1⟩ authEmpty) }

/-- A fact whose first term is the `authority` symbol (id 0 in the default
table). -/
def factAuthTagged : Fact := ⟨⟨7, [ID.Symbol 0]⟩⟩

/-- A fact whose first term is the `ambient` symbol (id 1 in the default
table). -/
def factAmbTagged : Fact := ⟨⟨8, [ID.Symbol 1]⟩⟩

/-- A first appended block (index field 1) carrying an authority-tagged
fact, which the privilege gate must reject. -/
def blkC1 : Block :=
  { index := 1, symbols := ⟨[]⟩, facts := [factAuthTagged], rules := [],
    caveats := [], context := none }

/-- A token whose single appended block carries an authority-tagged fact. -/
def tokC1 : Biscuit :=
  { authority := authEmpty, blocks := [blkC1],
    symbols := default_symbol_table,
    container := some (SerializedBiscuit.new ⟨1⟩ authEmpty) }

/-- An authority block carrying an ambient-tagged fact. -/
def authAmb : Block :=
  { index := 0, symbols := ⟨[]⟩, facts := [factAmbTagged], rules := [],
    caveats := [], context := none }

/-- A token whose authority block carries an ambient-tagged fact. -/
def tokC1w : Biscuit :=
  { authority := authAmb, blocks := [],
    symbols := default_symbol_table,
    container := some (SerializedBiscuit.new ⟨1⟩ authAmb) }

/-- A fact with an empty term list: `fact.predicate.ids[0]` panics on it. -/
def factEmptyIds : Fact := ⟨⟨7, []⟩⟩

/-- An authority block containing a fact with an empty term list. -/
def authEmptyIds : Block :=
  { index := 0, symbols := ⟨[]⟩, facts := [factEmptyIds], rules := [],
    caveats := [], context := none }

/-- A token whose authority block contains a fact with an empty term
list. -/
def tokC9 : Biscuit :=
  { authority := authEmptyIds, blocks := [],
    symbols := default_symbol_table,
    container := some (SerializedBiscuit.new ⟨1⟩ authEmptyIds) }

/-- Recognizes a `Verifier` failure entry carrying caveat id `j`. -/
def isVerifierId (j : Nat) : FailedCaveat → Bool
  | .Verifier id _ => id == j
  | _ => false

/-- The caveat with no queries: no query can yield a non-empty result, so
it is never satisfied. -/
def cavEmpty : Caveat := ⟨[]⟩

/-- A first appended block (index field 1) whose single caveat is
unsatisfiable. -/
def blkC5 : Block :=
  { index := 1, symbols := ⟨[]⟩, facts := [], rules := [],
    caveats := [cavEmpty], context := none }

/-- A token whose single appended block carries an unsatisfiable caveat. -/
def tokC5 : Biscuit :=
  { authority := authEmpty, blocks := [blkC5],
    symbols := default_symbol_table,
    container := some (SerializedBiscuit.new ⟨1⟩ authEmpty) }

/-- A plain first appended block (index field 1) with no content. -/
def blkApp : Block :=
  { index := 1, symbols := ⟨[]⟩, facts := [], rules := [], caveats := [],
    context := none }

/-- An authority block that re-introduces the predefined symbol
`"authority"` in its local table. -/
def authOverlap : Block :=
  { index := 0, symbols := ⟨["authority"]⟩, facts := [], rules := [],
    caveats := [], context := none }

/-- A decoded container whose authority block re-introduces
`"authority"`. -/
def contC4 : SerializedBiscuit :=
  { authority := authOverlap, blocks := [], keys := [1], signature := [] }

/-- The token that deserializing `contC4` under the default table yields:
its merged symbol table contains `"authority"` twice. -/
def tokC4dup : Biscuit :=
  { authority := authOverlap, blocks := [],
    symbols := ⟨default_symbol_table.symbols ++ ["authority"]⟩,
    container := some contC4 }

/-- A sealed-state token (no signed container), as `from_sealed` yields. -/
def tokSealed : Biscuit :=
  { authority := authEmpty, blocks := [], symbols := default_symbol_table,
    container := none }

/-- A well-indexed container with one appended block. -/
def contC8 : SerializedBiscuit :=
  { authority := authEmpty, blocks := [blkApp], keys := [1, 2],
    signature := [] }

/-- A well-indexed sealed container with one appended block. -/
def scC8 : SealedBiscuit := { authority := authEmpty, blocks := [blkApp] }

/-! ## Lemmas about world seeding -/

namespace Biscuit

theorem seedAuthorityFacts_error {mi : Nat} {e : Logic} :
    ∀ {fs : List Fact} {w : World},
      seedAuthorityFacts mi fs w = .error e →
      ∃ f ∈ fs, factTagged mi f ∧ e = .InvalidAuthorityFact f := by
  intro fs
  induction fs with
  | nil => intro w h; simp [seedAuthorityFacts] at h
  | cons f rest ih =>
    intro w h
    unfold seedAuthorityFacts at h
    cases hh : f.predicate.ids.head? with
    | none => rw [hh] at h; exact absurd h (by simp)
    | some t0 =>
      rw [hh] at h
      dsimp only at h
      by_cases ht : t0 = ID.Symbol mi
      · rw [if_pos ht] at h
        cases h
        exact ⟨f, by simp, by simp [factTagged, hh, ht], rfl⟩
      · rw [if_neg ht] at h
        obtain ⟨g, hg, htag, he⟩ := ih h
        exact ⟨g, by simp [hg], htag, he⟩

theorem seedAuthorityFacts_ok_of_clean {mi : Nat} :
    ∀ {fs : List Fact} {w : World},
      (∀ f ∈ fs, f.predicate.ids ≠ [] ∧ ¬ factTagged mi f) →
      seedAuthorityFacts mi fs w = .ok (fs.foldl World.insertFact w) := by
  intro fs
  induction fs with
  | nil => intro w _; simp [seedAuthorityFacts]
  | cons f rest ih =>
    intro w hclean
    obtain ⟨hne, htag⟩ := hclean f (by simp)
    unfold seedAuthorityFacts
    cases hh : f.predicate.ids.head? with
    | none => exact absurd (List.head?_eq_none_iff.mp hh) hne
    | some t0 =>
      have ht : t0 ≠ ID.Symbol mi := by
        intro contra
        exact htag (by simp [factTagged, hh, contra])
      dsimp only
      rw [if_neg ht]
      simpa using ih (fun g hg => hclean g (by simp [hg]))

theorem seedAuthorityFacts_ok_clean {mi : Nat} :
    ∀ {fs : List Fact} {w w' : World},
      seedAuthorityFacts mi fs w = .ok w' →
      ∀ f ∈ fs, ¬ factTagged mi f := by
  intro fs
  induction fs with
  | nil => intro w w' _; simp
  | cons f rest ih =>
    intro w w' h
    unfold seedAuthorityFacts at h
    cases hh : f.predicate.ids.head? with
    | none => rw [hh] at h; exact absurd h (by simp)
    | some t0 =>
      rw [hh] at h
      dsimp only at h
      by_cases ht : t0 = ID.Symbol mi
      · rw [if_pos ht] at h; exact absurd h (by simp)
      · rw [if_neg ht] at h
        intro g hg
        rcases List.mem_cons.mp hg with hgf | hgr
        · subst hgf
          intro contra
          rw [factTagged, hh] at contra
          exact ht (by injection contra)
        · exact ih h g hgr

theorem seedAuthorityFacts_error_of_bad {mi : Nat} :
    ∀ {fs : List Fact} {w : World},
      (∀ f ∈ fs, f.predicate.ids ≠ []) →
      (∃ f ∈ fs, factTagged mi f) →
      ∃ f, seedAuthorityFacts mi fs w = .error (.InvalidAuthorityFact f) := by
  intro fs
  induction fs with
  | nil => intro w _ hbad; simp at hbad
  | cons f rest ih =>
    intro w hne hbad
    unfold seedAuthorityFacts
    cases hh : f.predicate.ids.head? with
    | none => exact absurd (List.head?_eq_none_iff.mp hh) (hne f (by simp))
    | some t0 =>
      dsimp only
      by_cases ht : t0 = ID.Symbol mi
      · exact ⟨f, by rw [if_pos ht]⟩
      · rw [if_neg ht]
        have hbad' : ∃ g ∈ rest, factTagged mi g := by
          obtain ⟨g, hg, htag⟩ := hbad
          rcases List.mem_cons.mp hg with hgf | hgr
          · subst hgf
            rw [factTagged, hh] at htag
            exact absurd (by injection htag) ht
          · exact ⟨g, hgr, htag⟩
        exact ih (fun g hg => hne g (by simp [hg])) hbad'

theorem seedBlockFacts_error {ai mi i : Nat} {e : Logic} :
    ∀ {fs : List Fact} {w : World},
      seedBlockFacts ai mi i fs w = .error e →
      ∃ f ∈ fs, (factTagged ai f ∨ factTagged mi f) ∧
        e = .InvalidBlockFact i f := by
  intro fs
  induction fs with
  | nil => intro w h; simp [seedBlockFacts] at h
  | cons f rest ih =>
    intro w h
    unfold seedBlockFacts at h
    cases hh : f.predicate.ids.head? with
    | none => rw [hh] at h; exact absurd h (by simp)
    | some t0 =>
      rw [hh] at h
      dsimp only at h
      by_cases ht : t0 = ID.Symbol ai ∨ t0 = ID.Symbol mi
      · rw [if_pos ht] at h
        cases h
        refine ⟨f, by simp, ?_, rfl⟩
        rcases ht with ht | ht
        · exact Or.inl (by simp [factTagged, hh, ht])
        · exact Or.inr (by simp [factTagged, hh, ht])
      · rw [if_neg ht] at h
        obtain ⟨g, hg, htag, he⟩ := ih h
        exact ⟨g, by simp [hg], htag, he⟩

theorem seedBlockFacts_ok_of_clean {ai mi i : Nat} :
    ∀ {fs : List Fact} {w : World},
      (∀ f ∈ fs, f.predicate.ids ≠ [] ∧ ¬ factTagged ai f ∧ ¬ factTagged mi f) →
      seedBlockFacts ai mi i fs w = .ok (fs.foldl World.insertFact w) := by
  intro fs
  induction fs with
  | nil => intro w _; simp [seedBlockFacts]
  | cons f rest ih =>
    intro w hclean
    obtain ⟨hne, htaga, htagm⟩ := hclean f (by simp)
    unfold seedBlockFacts
    cases hh : f.predicate.ids.head? with
    | none => exact absurd (List.head?_eq_none_iff.mp hh) hne
    | some t0 =>
      have ht : ¬ (t0 = ID.Symbol ai ∨ t0 = ID.Symbol mi) := by
        rintro (contra | contra)
        · exact htaga (by simp [factTagged, hh, contra])
        · exact htagm (by simp [factTagged, hh, contra])
      dsimp only
      rw [if_neg ht]
      simpa using ih (fun g hg => hclean g (by simp [hg]))

theorem seedBlockFacts_ok_clean {ai mi i : Nat} :
    ∀ {fs : List Fact} {w w' : World},
      seedBlockFacts ai mi i fs w = .ok w' →
      ∀ f ∈ fs, ¬ factTagged ai f ∧ ¬ factTagged mi f := by
  intro fs
  induction fs with
  | nil => intro w w' _; simp
  | cons f rest ih =>
    intro w w' h
    unfold seedBlockFacts at h
    cases hh : f.predicate.ids.head? with
    | none => rw [hh] at h; exact absurd h (by simp)
    | some t0 =>
      rw [hh] at h
      dsimp only at h
      by_cases ht : t0 = ID.Symbol ai ∨ t0 = ID.Symbol mi
      · rw [if_pos ht] at h; exact absurd h (by simp)
      · rw [if_neg ht] at h
        intro g hg
        rcases List.mem_cons.mp hg with hgf | hgr
        · subst hgf
          constructor
          · intro contra
            rw [factTagged, hh] at contra
            exact ht (Or.inl (by injection contra))
          · intro contra
            rw [factTagged, hh] at contra
            exact ht (Or.inr (by injection contra))
        · exact ih h g hgr

theorem seedBlockRules_error {ai mi i : Nat} {e : Logic} :
    ∀ {rs : List Rule} {w : World},
      seedBlockRules ai mi i rs w = .error e →
      ∃ r ∈ rs, (ruleTagged ai r ∨ ruleTagged mi r) ∧
        e = .InvalidBlockRule i r := by
  intro rs
  induction rs with
  | nil => intro w h; simp [seedBlockRules] at h
  | cons r rest ih =>
    intro w h
    unfold seedBlockRules at h
    cases hh : r.head.ids.head? with
    | none => rw [hh] at h; exact absurd h (by simp)
    | some t0 =>
      rw [hh] at h
      dsimp only at h
      by_cases ht : t0 = ID.Symbol ai ∨ t0 = ID.Symbol mi
      · rw [if_pos ht] at h
        cases h
        refine ⟨r, by simp, ?_, rfl⟩
        rcases ht with ht | ht
        · exact Or.inl (by simp [ruleTagged, hh, ht])
        · exact Or.inr (by simp [ruleTagged, hh, ht])
      · rw [if_neg ht] at h
        obtain ⟨g, hg, htag, he⟩ := ih h
        exact ⟨g, by simp [hg], htag, he⟩

theorem seedBlockRules_ok_of_clean {ai mi i : Nat} :
    ∀ {rs : List Rule} {w : World},
      (∀ r ∈ rs, r.head.ids ≠ [] ∧ ¬ ruleTagged ai r ∧ ¬ ruleTagged mi r) →
      seedBlockRules ai mi i rs w = .ok { w with rules := w.rules ++ rs } := by
  intro rs
  induction rs with
  | nil => intro w _; simp [seedBlockRules]
  | cons r rest ih =>
    intro w hclean
    obtain ⟨hne, htaga, htagm⟩ := hclean r (by simp)
    unfold seedBlockRules
    cases hh : r.head.ids.head? with
    | none => exact absurd (List.head?_eq_none_iff.mp hh) hne
    | some t0 =>
      have ht : ¬ (t0 = ID.Symbol ai ∨ t0 = ID.Symbol mi) := by
        rintro (contra | contra)
        · exact htaga (by simp [ruleTagged, hh, contra])
        · exact htagm (by simp [ruleTagged, hh, contra])
      dsimp only
      rw [if_neg ht]
      have h2 := @ih { w with rules := w.rules ++ [r] }
        (fun g hg => hclean g (by simp [hg]))
      simpa using h2

theorem seedBlockRules_ok_clean {ai mi i : Nat} :
    ∀ {rs : List Rule} {w w' : World},
      seedBlockRules ai mi i rs w = .ok w' →
      ∀ r ∈ rs, ¬ ruleTagged ai r ∧ ¬ ruleTagged mi r := by
  intro rs
  induction rs with
  | nil => intro w w' _; simp
  | cons r rest ih =>
    intro w w' h
    unfold seedBlockRules at h
    cases hh : r.head.ids.head? with
    | none => rw [hh] at h; exact absurd h (by simp)
    | some t0 =>
      rw [hh] at h
      dsimp only at h
      by_cases ht : t0 = ID.Symbol ai ∨ t0 = ID.Symbol mi
      · rw [if_pos ht] at h; exact absurd h (by simp)
      · rw [if_neg ht] at h
        intro g hg
        rcases List.mem_cons.mp hg with hgf | hgr
        · subst hgf
          constructor
          · intro contra
            rw [ruleTagged, hh] at contra
            exact ht (Or.inl (by injection contra))
          · intro contra
            rw [ruleTagged, hh] at contra
            exact ht (Or.inr (by injection contra))
        · exact ih h g hgr

theorem seedBlocks_error {ai mi : Nat} {e : Logic} :
    ∀ {bs : List Block} {i : Nat} {w : World},
      seedBlocks ai mi i bs w = .error e →
      ∃ j b, bs[j]? = some b ∧
        ((∃ f ∈ b.facts, (factTagged ai f ∨ factTagged mi f) ∧
            e = .InvalidBlockFact (i + j) f) ∨
         (∃ r ∈ b.rules, (ruleTagged ai r ∨ ruleTagged mi r) ∧
            e = .InvalidBlockRule (i + j) r)) := by
  intro bs
  induction bs with
  | nil => intro i w h; simp [seedBlocks] at h
  | cons b rest ih =>
    intro i w h
    unfold seedBlocks at h
    cases hf : seedBlockFacts ai mi i b.facts w with
    | panic => rw [hf] at h; exact absurd h (by simp)
    | error e2 =>
      rw [hf] at h
      cases h
      obtain ⟨f, hfmem, htag, he⟩ := seedBlockFacts_error hf
      exact ⟨0, b, by simp, Or.inl ⟨f, hfmem, htag, by simpa using he⟩⟩
    | ok w2 =>
      rw [hf] at h
      dsimp only at h
      cases hr : seedBlockRules ai mi i b.rules w2 with
      | panic => rw [hr] at h; exact absurd h (by simp)
      | error e2 =>
        rw [hr] at h
        cases h
        obtain ⟨r, hrmem, htag, he⟩ := seedBlockRules_error hr
        exact ⟨0, b, by simp, Or.inr ⟨r, hrmem, htag, by simpa using he⟩⟩
      | ok w3 =>
        rw [hr] at h
        dsimp only at h
        obtain ⟨j, b2, hget, hoff⟩ := ih h
        refine ⟨j + 1, b2, by simpa using hget, ?_⟩
        have harith : i + 1 + j = i + (j + 1) := by omega
        rw [harith] at hoff
        exact hoff

theorem seedBlocks_ok_clean {ai mi : Nat} :
    ∀ {bs : List Block} {i : Nat} {w w' : World},
      seedBlocks ai mi i bs w = .ok w' →
      ∀ b ∈ bs, cleanBlock ai mi b := by
  intro bs
  induction bs with
  | nil => intro i w w' _; simp
  | cons b rest ih =>
    intro i w w' h
    unfold seedBlocks at h
    cases hf : seedBlockFacts ai mi i b.facts w with
    | panic => rw [hf] at h; exact absurd h (by simp)
    | error e2 => rw [hf] at h; exact absurd h (by simp)
    | ok w2 =>
      rw [hf] at h
      dsimp only at h
      cases hr : seedBlockRules ai mi i b.rules w2 with
      | panic => rw [hr] at h; exact absurd h (by simp)
      | error e2 => rw [hr] at h; exact absurd h (by simp)
      | ok w3 =>
        rw [hr] at h
        dsimp only at h
        intro b2 hb2
        rcases List.mem_cons.mp hb2 with hb | hb
        · subst hb
          exact ⟨seedBlockFacts_ok_clean hf, seedBlockRules_ok_clean hr⟩
        · exact ih h b2 hb

theorem seedBlocks_ok_of_clean {ai mi : Nat} :
    ∀ {bs : List Block} {i : Nat} {w : World},
      (∀ b ∈ bs, nonemptyIdsBlock b ∧ cleanBlock ai mi b) →
      ∃ w', seedBlocks ai mi i bs w = .ok w' := by
  intro bs
  induction bs with
  | nil => intro i w _; exact ⟨w, by simp [seedBlocks]⟩
  | cons b rest ih =>
    intro i w hclean
    obtain ⟨⟨hnef, hner⟩, ⟨hcf, hcr⟩⟩ := hclean b (by simp)
    unfold seedBlocks
    rw [seedBlockFacts_ok_of_clean
      (fun f hf => ⟨hnef f hf, (hcf f hf).1, (hcf f hf).2⟩)]
    dsimp only
    rw [seedBlockRules_ok_of_clean
      (fun r hr => ⟨hner r hr, (hcr r hr).1, (hcr r hr).2⟩)]
    exact ih (fun b2 hb2 => hclean b2 (by simp [hb2]))

theorem generate_world_invalidAuthorityFact {t : Biscuit}
    {symbols : SymbolTable} {ai mi : Nat} {f : Fact}
    (ha : symbols.get "authority" = some ai)
    (hm : symbols.get "ambient" = some mi)
    (h : t.generate_world symbols = .error (.InvalidAuthorityFact f)) :
    f ∈ t.authority.facts ∧ factTagged mi f := by
  unfold generate_world at h
  rw [ha, hm] at h
  dsimp only at h
  cases haf : seedAuthorityFacts mi t.authority.facts World.new with
  | panic => rw [haf] at h; exact absurd h (by simp)
  | error e =>
    rw [haf] at h
    cases h
    obtain ⟨g, hg, htag, he⟩ := seedAuthorityFacts_error haf
    cases he
    exact ⟨hg, htag⟩
  | ok w =>
    rw [haf] at h
    dsimp only at h
    cases hsb : seedBlocks ai mi 0 t.blocks
        { w with rules := w.rules ++ t.authority.rules } with
    | panic => rw [hsb] at h; exact absurd h (by simp)
    | error e =>
      rw [hsb] at h
      cases h
      obtain ⟨j, b, _, hoff⟩ := seedBlocks_error hsb
      rcases hoff with ⟨_, _, _, he⟩ | ⟨_, _, _, he⟩ <;> exact absurd he (by simp)
    | ok w2 => rw [hsb] at h; exact absurd h (by simp)

theorem generate_world_invalidBlockFact {t : Biscuit}
    {symbols : SymbolTable} {ai mi k : Nat} {f : Fact}
    (ha : symbols.get "authority" = some ai)
    (hm : symbols.get "ambient" = some mi)
    (h : t.generate_world symbols = .error (.InvalidBlockFact k f)) :
    ∃ b, t.blocks[k]? = some b ∧ f ∈ b.facts ∧
      (factTagged ai f ∨ factTagged mi f) := by
  unfold generate_world at h
  rw [ha, hm] at h
  dsimp only at h
  cases haf : seedAuthorityFacts mi t.authority.facts World.new with
  | panic => rw [haf] at h; exact absurd h (by simp)
  | error e =>
    rw [haf] at h
    cases h
    obtain ⟨g, _, _, he⟩ := seedAuthorityFacts_error haf
    exact absurd he (by simp)
  | ok w =>
    rw [haf] at h
    dsimp only at h
    cases hsb : seedBlocks ai mi 0 t.blocks
        { w with rules := w.rules ++ t.authority.rules } with
    | panic => rw [hsb] at h; exact absurd h (by simp)
    | error e =>
      rw [hsb] at h
      cases h
      obtain ⟨j, b, hget, hoff⟩ := seedBlocks_error hsb
      rcases hoff with ⟨g, hg, htag, he⟩ | ⟨_, _, _, he⟩
      · rw [Logic.InvalidBlockFact.injEq] at he
        obtain ⟨hk, hf⟩ := he
        subst hf
        rw [Nat.zero_add] at hk
        subst hk
        exact ⟨b, hget, hg, htag⟩
      · exact absurd he (by simp)
    | ok w2 => rw [hsb] at h; exact absurd h (by simp)

theorem generate_world_invalidBlockRule {t : Biscuit}
    {symbols : SymbolTable} {ai mi k : Nat} {r : Rule}
    (ha : symbols.get "authority" = some ai)
    (hm : symbols.get "ambient" = some mi)
    (h : t.generate_world symbols = .error (.InvalidBlockRule k r)) :
    ∃ b, t.blocks[k]? = some b ∧ r ∈ b.rules ∧
      (ruleTagged ai r ∨ ruleTagged mi r) := by
  unfold generate_world at h
  rw [ha, hm] at h
  dsimp only at h
  cases haf : seedAuthorityFacts mi t.authority.facts World.new with
  | panic => rw [haf] at h; exact absurd h (by simp)
  | error e =>
    rw [haf] at h
    cases h
    obtain ⟨g, _, _, he⟩ := seedAuthorityFacts_error haf
    exact absurd he (by simp)
  | ok w =>
    rw [haf] at h
    dsimp only at h
    cases hsb : seedBlocks ai mi 0 t.blocks
        { w with rules := w.rules ++ t.authority.rules } with
    | panic => rw [hsb] at h; exact absurd h (by simp)
    | error e =>
      rw [hsb] at h
      cases h
      obtain ⟨j, b, hget, hoff⟩ := seedBlocks_error hsb
      rcases hoff with ⟨_, _, _, he⟩ | ⟨g, hg, htag, he⟩
      · exact absurd he (by simp)
      · rw [Logic.InvalidBlockRule.injEq] at he
        obtain ⟨hk, hr⟩ := he
        subst hr
        rw [Nat.zero_add] at hk
        subst hk
        exact ⟨b, hget, hg, htag⟩
    | ok w2 => rw [hsb] at h; exact absurd h (by simp)

theorem generate_world_not_failedCaveats (t : Biscuit)
    (symbols : SymbolTable) (l : List FailedCaveat) :
    t.generate_world symbols ≠ .error (.FailedCaveats l) := by
  intro h
  unfold generate_world at h
  cases hga : symbols.get "authority" with
  | none => rw [hga] at h; exact absurd h (by simp)
  | some ai =>
    cases hgm : symbols.get "ambient" with
    | none => rw [hga, hgm] at h; exact absurd h (by simp)
    | some mi =>
      rw [hga, hgm] at h
      dsimp only at h
      cases haf : seedAuthorityFacts mi t.authority.facts World.new with
      | panic => rw [haf] at h; exact absurd h (by simp)
      | error e =>
        rw [haf] at h
        cases h
        obtain ⟨g, _, _, he⟩ := seedAuthorityFacts_error haf
        exact absurd he (by simp)
      | ok w =>
        rw [haf] at h
        dsimp only at h
        cases hsb : seedBlocks ai mi 0 t.blocks
            { w with rules := w.rules ++ t.authority.rules } with
        | panic => rw [hsb] at h; exact absurd h (by simp)
        | error e =>
          rw [hsb] at h
          cases h
          obtain ⟨j, b, _, hoff⟩ := seedBlocks_error hsb
          rcases hoff with ⟨_, _, _, he⟩ | ⟨_, _, _, he⟩ <;>
            exact absurd he (by simp)
        | ok w2 => rw [hsb] at h; exact absurd h (by simp)

theorem generate_world_ok_clean {t : Biscuit}
    {symbols : SymbolTable} {ai mi : Nat} {w : World}
    (ha : symbols.get "authority" = some ai)
    (hm : symbols.get "ambient" = some mi)
    (h : t.generate_world symbols = .ok w) :
    (∀ f ∈ t.authority.facts, ¬ factTagged mi f) ∧
      (∀ b ∈ t.blocks, cleanBlock ai mi b) := by
  unfold generate_world at h
  rw [ha, hm] at h
  dsimp only at h
  cases haf : seedAuthorityFacts mi t.authority.facts World.new with
  | panic => rw [haf] at h; exact absurd h (by simp)
  | error e => rw [haf] at h; exact absurd h (by simp)
  | ok w1 =>
    rw [haf] at h
    dsimp only at h
    cases hsb : seedBlocks ai mi 0 t.blocks
        { w1 with rules := w1.rules ++ t.authority.rules } with
    | panic => rw [hsb] at h; exact absurd h (by simp)
    | error e => rw [hsb] at h; exact absurd h (by simp)
    | ok w2 =>
      exact ⟨seedAuthorityFacts_ok_clean haf, seedBlocks_ok_clean hsb⟩

theorem generate_world_ok_of_clean {t : Biscuit}
    {symbols : SymbolTable} {ai mi : Nat}
    (ha : symbols.get "authority" = some ai)
    (hm : symbols.get "ambient" = some mi)
    (hneA : ∀ f ∈ t.authority.facts, f.predicate.ids ≠ [])
    (hneB : ∀ b ∈ t.blocks, nonemptyIdsBlock b)
    (hcA : ∀ f ∈ t.authority.facts, ¬ factTagged mi f)
    (hcB : ∀ b ∈ t.blocks, cleanBlock ai mi b) :
    ∃ w, t.generate_world symbols = .ok w := by
  unfold generate_world
  rw [ha, hm]
  dsimp only
  rw [seedAuthorityFacts_ok_of_clean (fun f hf => ⟨hneA f hf, hcA f hf⟩)]
  dsimp only
  obtain ⟨w2, hw2⟩ := @seedBlocks_ok_of_clean ai mi t.blocks 0
    { (t.authority.facts.foldl World.insertFact World.new) with
      rules := (t.authority.facts.foldl World.insertFact World.new).rules
        ++ t.authority.rules }
    (fun b hb => ⟨hneB b hb, hcB b hb⟩)
  rw [hw2]
  exact ⟨w2.run, rfl⟩

theorem generate_world_error_of_badAuthority {t : Biscuit}
    {symbols : SymbolTable} {ai mi : Nat}
    (ha : symbols.get "authority" = some ai)
    (hm : symbols.get "ambient" = some mi)
    (hneA : ∀ f ∈ t.authority.facts, f.predicate.ids ≠ [])
    (hbad : ∃ f ∈ t.authority.facts, factTagged mi f) :
    ∃ f, t.generate_world symbols = .error (.InvalidAuthorityFact f) := by
  unfold generate_world
  rw [ha, hm]
  dsimp only
  obtain ⟨f, hf⟩ := @seedAuthorityFacts_error_of_bad mi t.authority.facts
    World.new hneA hbad
  rw [hf]
  exact ⟨f, rfl⟩

/-! ### Lemmas about the caveat loops of `check` -/

theorem caveatSuccessful_iff {world : World} {c : Caveat} :
    caveatSuccessful world c = true ↔ caveatSatisfied world c := by
  simp [caveatSuccessful, caveatSatisfied, List.any_eq_true,
    List.isEmpty_iff]

theorem mem_authorityCaveatErrors {world : World} {e : FailedCaveat} :
    ∀ {cs : List Caveat} {i : Nat},
      e ∈ authorityCaveatErrors world i cs ↔
      ∃ j c, cs[j]? = some c ∧ caveatSuccessful world c = false ∧
        e = .Block 0 (i + j) c := by
  intro cs
  induction cs with
  | nil => intro i; simp [authorityCaveatErrors]
  | cons c rest ih =>
    intro i
    unfold authorityCaveatErrors
    by_cases hs : caveatSuccessful world c
    · rw [if_pos hs, ih]
      constructor
      · rintro ⟨j, c2, hget, hfail, he⟩
        exact ⟨j + 1, c2, by simpa using hget, hfail,
          by rw [he]; congr 1; omega⟩
      · rintro ⟨j, c2, hget, hfail, he⟩
        cases j with
        | zero =>
          simp only [List.getElem?_cons_zero, Option.some.injEq] at hget
          subst hget
          rw [hs] at hfail
          cases hfail
        | succ j =>
          simp only [List.getElem?_cons_succ] at hget
          exact ⟨j, c2, hget, hfail, by rw [he]; congr 1; omega⟩
    · rw [if_neg hs]
      simp only [List.mem_cons, ih]
      constructor
      · rintro (he | ⟨j, c2, hget, hfail, he⟩)
        · exact ⟨0, c, by simp, by simp [Bool.eq_false_iff, hs],
            by simpa using he⟩
        · exact ⟨j + 1, c2, by simpa using hget, hfail,
            by rw [he]; congr 1; omega⟩
      · rintro ⟨j, c2, hget, hfail, he⟩
        cases j with
        | zero =>
          simp only [List.getElem?_cons_zero, Option.some.injEq] at hget
          subst hget
          exact Or.inl (by simpa using he)
        | succ j =>
          simp only [List.getElem?_cons_succ] at hget
          exact Or.inr ⟨j, c2, hget, hfail, by rw [he]; congr 1; omega⟩

theorem length_authorityCaveatErrors {world : World} :
    ∀ {cs : List Caveat} {i : Nat},
      (authorityCaveatErrors world i cs).length =
        cs.countP (fun c => !caveatSuccessful world c) := by
  intro cs
  induction cs with
  | nil => intro i; simp [authorityCaveatErrors]
  | cons c rest ih =>
    intro i
    unfold authorityCaveatErrors
    by_cases hs : caveatSuccessful world c
    · rw [if_pos hs]
      simp [List.countP_cons, hs, ih]
    · rw [if_neg hs]
      simp [List.countP_cons, Bool.eq_false_iff.mpr hs, ih]

theorem authorityCaveatErrors_eq_nil {world : World} :
    ∀ {cs : List Caveat} {i : Nat},
      authorityCaveatErrors world i cs = [] ↔
      ∀ c ∈ cs, caveatSuccessful world c = true := by
  intro cs
  induction cs with
  | nil => intro i; simp [authorityCaveatErrors]
  | cons c rest ih =>
    intro i
    unfold authorityCaveatErrors
    by_cases hs : caveatSuccessful world c
    · rw [if_pos hs]
      simp [ih, hs]
    · rw [if_neg hs]
      simp [hs]

theorem mem_verifierCaveatErrors {world : World} {e : FailedCaveat} :
    ∀ {cs : List Caveat} {i : Nat},
      e ∈ verifierCaveatErrors world i cs ↔
      ∃ j c, cs[j]? = some c ∧ caveatSuccessful world c = false ∧
        e = .Verifier (i + j) c := by
  intro cs
  induction cs with
  | nil => intro i; simp [verifierCaveatErrors]
  | cons c rest ih =>
    intro i
    unfold verifierCaveatErrors
    by_cases hs : caveatSuccessful world c
    · rw [if_pos hs, ih]
      constructor
      · rintro ⟨j, c2, hget, hfail, he⟩
        exact ⟨j + 1, c2, by simpa using hget, hfail,
          by rw [he]; congr 1; omega⟩
      · rintro ⟨j, c2, hget, hfail, he⟩
        cases j with
        | zero =>
          simp only [List.getElem?_cons_zero, Option.some.injEq] at hget
          subst hget
          rw [hs] at hfail
          cases hfail
        | succ j =>
          simp only [List.getElem?_cons_succ] at hget
          exact ⟨j, c2, hget, hfail, by rw [he]; congr 1; omega⟩
    · rw [if_neg hs]
      simp only [List.mem_cons, ih]
      constructor
      · rintro (he | ⟨j, c2, hget, hfail, he⟩)
        · exact ⟨0, c, by simp, by simp [Bool.eq_false_iff, hs],
            by simpa using he⟩
        · exact ⟨j + 1, c2, by simpa using hget, hfail,
            by rw [he]; congr 1; omega⟩
      · rintro ⟨j, c2, hget, hfail, he⟩
        cases j with
        | zero =>
          simp only [List.getElem?_cons_zero, Option.some.injEq] at hget
          subst hget
          exact Or.inl (by simpa using he)
        | succ j =>
          simp only [List.getElem?_cons_succ] at hget
          exact Or.inr ⟨j, c2, hget, hfail, by rw [he]; congr 1; omega⟩

theorem length_verifierCaveatErrors {world : World} :
    ∀ {cs : List Caveat} {i : Nat},
      (verifierCaveatErrors world i cs).length =
        cs.countP (fun c => !caveatSuccessful world c) := by
  intro cs
  induction cs with
  | nil => intro i; simp [verifierCaveatErrors]
  | cons c rest ih =>
    intro i
    unfold verifierCaveatErrors
    by_cases hs : caveatSuccessful world c
    · rw [if_pos hs]
      simp [List.countP_cons, hs, ih]
    · rw [if_neg hs]
      simp [List.countP_cons, Bool.eq_false_iff.mpr hs, ih]

theorem verifierCaveatErrors_eq_nil {world : World} :
    ∀ {cs : List Caveat} {i : Nat},
      verifierCaveatErrors world i cs = [] ↔
      ∀ c ∈ cs, caveatSuccessful world c = true := by
  intro cs
  induction cs with
  | nil => intro i; simp [verifierCaveatErrors]
  | cons c rest ih =>
    intro i
    unfold verifierCaveatErrors
    by_cases hs : caveatSuccessful world c
    · rw [if_pos hs]
      simp [ih, hs]
    · rw [if_neg hs]
      simp [hs]

theorem mem_blockCaveatErrors {world : World} {bid : Nat} {e : FailedCaveat} :
    ∀ {cs : List Caveat} {j : Nat},
      e ∈ blockCaveatErrors world bid j cs ↔
      ∃ k c, cs[k]? = some c ∧ caveatSuccessful world c = false ∧
        e = .Block bid (j + k) c := by
  intro cs
  induction cs with
  | nil => intro j; simp [blockCaveatErrors]
  | cons c rest ih =>
    intro j
    unfold blockCaveatErrors
    by_cases hs : caveatSuccessful world c
    · rw [if_pos hs, ih]
      constructor
      · rintro ⟨k, c2, hget, hfail, he⟩
        exact ⟨k + 1, c2, by simpa using hget, hfail,
          by rw [he]; congr 1; omega⟩
      · rintro ⟨k, c2, hget, hfail, he⟩
        cases k with
        | zero =>
          simp only [List.getElem?_cons_zero, Option.some.injEq] at hget
          subst hget
          rw [hs] at hfail
          cases hfail
        | succ k =>
          simp only [List.getElem?_cons_succ] at hget
          exact ⟨k, c2, hget, hfail, by rw [he]; congr 1; omega⟩
    · rw [if_neg hs]
      simp only [List.mem_cons, ih]
      constructor
      · rintro (he | ⟨k, c2, hget, hfail, he⟩)
        · exact ⟨0, c, by simp, by simp [Bool.eq_false_iff, hs],
            by simpa using he⟩
        · exact ⟨k + 1, c2, by simpa using hget, hfail,
            by rw [he]; congr 1; omega⟩
      · rintro ⟨k, c2, hget, hfail, he⟩
        cases k with
        | zero =>
          simp only [List.getElem?_cons_zero, Option.some.injEq] at hget
          subst hget
          exact Or.inl (by simpa using he)
        | succ k =>
          simp only [List.getElem?_cons_succ] at hget
          exact Or.inr ⟨k, c2, hget, hfail, by rw [he]; congr 1; omega⟩

theorem length_blockCaveatErrors {world : World} {bid : Nat} :
    ∀ {cs : List Caveat} {j : Nat},
      (blockCaveatErrors world bid j cs).length =
        cs.countP (fun c => !caveatSuccessful world c) := by
  intro cs
  induction cs with
  | nil => intro j; simp [blockCaveatErrors]
  | cons c rest ih =>
    intro j
    unfold blockCaveatErrors
    by_cases hs : caveatSuccessful world c
    · rw [if_pos hs]
      simp [List.countP_cons, hs, ih]
    · rw [if_neg hs]
      simp [List.countP_cons, Bool.eq_false_iff.mpr hs, ih]

theorem blockCaveatErrors_eq_nil {world : World} {bid : Nat} :
    ∀ {cs : List Caveat} {j : Nat},
      blockCaveatErrors world bid j cs = [] ↔
      ∀ c ∈ cs, caveatSuccessful world c = true := by
  intro cs
  induction cs with
  | nil => intro j; simp [blockCaveatErrors]
  | cons c rest ih =>
    intro j
    unfold blockCaveatErrors
    by_cases hs : caveatSuccessful world c
    · rw [if_pos hs]
      simp [ih, hs]
    · rw [if_neg hs]
      simp [hs]

theorem mem_blocksCaveatErrors {world : World} {e : FailedCaveat} :
    ∀ {bs : List Block} {i : Nat},
      e ∈ blocksCaveatErrors world i bs ↔
      ∃ k b, bs[k]? = some b ∧
        e ∈ blockCaveatErrors world (i + k) 0 b.caveats := by
  intro bs
  induction bs with
  | nil => intro i; simp [blocksCaveatErrors]
  | cons b rest ih =>
    intro i
    unfold blocksCaveatErrors
    simp only [List.mem_append, ih]
    constructor
    · rintro (he | ⟨k, b2, hget, he⟩)
      · exact ⟨0, b, by simp, by simpa using he⟩
      · refine ⟨k + 1, b2, by simpa using hget, ?_⟩
        have : i + 1 + k = i + (k + 1) := by omega
        rw [this] at he
        exact he
    · rintro ⟨k, b2, hget, he⟩
      cases k with
      | zero =>
        simp only [List.getElem?_cons_zero, Option.some.injEq] at hget
        subst hget
        exact Or.inl (by simpa using he)
      | succ k =>
        simp only [List.getElem?_cons_succ] at hget
        refine Or.inr ⟨k, b2, hget, ?_⟩
        have : i + 1 + k = i + (k + 1) := by omega
        rw [this]
        exact he

theorem length_blocksCaveatErrors {world : World} :
    ∀ {bs : List Block} {i : Nat},
      (blocksCaveatErrors world i bs).length =
        (bs.flatMap (·.caveats)).countP
          (fun c => !caveatSuccessful world c) := by
  intro bs
  induction bs with
  | nil => intro i; simp [blocksCaveatErrors]
  | cons b rest ih =>
    intro i
    unfold blocksCaveatErrors
    simp [List.countP_append, length_blockCaveatErrors, ih]

theorem blocksCaveatErrors_eq_nil {world : World} :
    ∀ {bs : List Block} {i : Nat},
      blocksCaveatErrors world i bs = [] ↔
      ∀ b ∈ bs, ∀ c ∈ b.caveats, caveatSuccessful world c = true := by
  intro bs
  induction bs with
  | nil => intro i; simp [blocksCaveatErrors]
  | cons b rest ih =>
    intro i
    unfold blocksCaveatErrors
    simp [List.append_eq_nil, blockCaveatErrors_eq_nil, ih]

theorem check_eq_of_ok {t : Biscuit} {symbols : SymbolTable}
    {af : List Fact} {ar : List Rule} {vc : List Caveat}
    {qs : List (String × Rule)} {w0 : World}
    (h : t.generate_world symbols = .ok w0) :
    t.check symbols af ar vc qs =
      (if (authorityCaveatErrors (buildCheckWorld w0 af ar) 0
            t.authority.caveats ++
          verifierCaveatErrors (buildCheckWorld w0 af ar) 0 vc ++
          blocksCaveatErrors (buildCheckWorld w0 af ar) 0 t.blocks).isEmpty
       then
        .ok (qs.map (fun p =>
          (p.1, (buildCheckWorld w0 af ar).query_rule p.2)))
       else
        .error (.FailedCaveats
          (authorityCaveatErrors (buildCheckWorld w0 af ar) 0
            t.authority.caveats ++
          verifierCaveatErrors (buildCheckWorld w0 af ar) 0 vc ++
          blocksCaveatErrors (buildCheckWorld w0 af ar) 0 t.blocks))) := by
  unfold check
  rw [h]

end Biscuit

/-! ## C1 — the world-seeding privilege gate -/

/-- **C1 (amended).** During `check`'s world seeding, with the authority and
ambient symbols resolvable and no fact or rule head with an empty term
list: seeding fails with `InvalidAuthorityFact` iff some authority-block
fact's first term is the `ambient` symbol (compared by symbol id); a
failure `InvalidBlockFact(k)` (resp. `InvalidBlockRule(k)`) identifies an
offending authority- or ambient-tagged fact (resp. rule head) of the k-th
appended block counted from 0 — the block whose index field is `k + 1` —
not from 1; and seeding succeeds exactly when the authority block has no
ambient-tagged fact and no appended block has a tagged fact or rule head
(in particular authority facts tagged `authority` or anything else are
accepted). -/
theorem C1_world_seeding_gate (t : Biscuit) (symbols : SymbolTable)
    (ai mi : Nat)
    (ha : symbols.get "authority" = some ai)
    (hm : symbols.get "ambient" = some mi)
    (hneA : ∀ f ∈ t.authority.facts, f.predicate.ids ≠ [])
    (hneB : ∀ b ∈ t.blocks, nonemptyIdsBlock b) :
    ((∃ f, t.generate_world symbols = .error (.InvalidAuthorityFact f)) ↔
      (∃ f ∈ t.authority.facts, factTagged mi f))
    ∧ (∀ k f, t.generate_world symbols = .error (.InvalidBlockFact k f) →
        ∃ b, t.blocks[k]? = some b ∧ f ∈ b.facts ∧
          (factTagged ai f ∨ factTagged mi f))
    ∧ (∀ k r, t.generate_world symbols = .error (.InvalidBlockRule k r) →
        ∃ b, t.blocks[k]? = some b ∧ r ∈ b.rules ∧
          (ruleTagged ai r ∨ ruleTagged mi r))
    ∧ ((∃ w, t.generate_world symbols = .ok w) ↔
        ((∀ f ∈ t.authority.facts, ¬ factTagged mi f) ∧
         (∀ b ∈ t.blocks, cleanBlock ai mi b))) := by
  refine ⟨⟨?_, ?_⟩, ?_, ?_, ⟨?_, ?_⟩⟩
  · rintro ⟨f, hf⟩
    obtain ⟨hmem, htag⟩ := Biscuit.generate_world_invalidAuthorityFact ha hm hf
    exact ⟨f, hmem, htag⟩
  · intro hbad
    exact Biscuit.generate_world_error_of_badAuthority ha hm hneA hbad
  · intro k f hf
    exact Biscuit.generate_world_invalidBlockFact ha hm hf
  · intro k r hr
    exact Biscuit.generate_world_invalidBlockRule ha hm hr
  · rintro ⟨w, hw⟩
    exact Biscuit.generate_world_ok_clean ha hm hw
  · rintro ⟨hcA, hcB⟩
    exact Biscuit.generate_world_ok_of_clean ha hm hneA hneB hcA hcB

/-- **C1 (counterexample).** The first appended block of `tokC1` — block
`b₁` in the claim's numbering — carries an authority-tagged fact, yet
seeding fails with `InvalidBlockFact 0`, not `InvalidBlockFact 1` as the
claim requires: the source enumerates appended blocks from 0. -/
theorem C1_counterexample :
    factTagged 0 factAuthTagged ∧ factAuthTagged ∈ blkC1.facts ∧
    Biscuit.generate_world tokC1 default_symbol_table =
      .error (.InvalidBlockFact 0 factAuthTagged) ∧
    Logic.InvalidBlockFact 0 factAuthTagged ≠
      Logic.InvalidBlockFact 1 factAuthTagged := by decide

/-- **C1 (witness).** The amended theorem applied to a concrete token whose
authority block carries an ambient-tagged fact. -/
theorem C1_witness :
    ∃ f, Biscuit.generate_world tokC1w default_symbol_table =
      .error (.InvalidAuthorityFact f) :=
  (C1_world_seeding_gate tokC1w default_symbol_table 0 1 (by decide)
      (by decide) (by decide) (by decide)).1.mpr
    ⟨factAmbTagged, by decide, by decide⟩

/-! ## C9 — the panics of world seeding -/

/-- **C9.** The claim (and the spec's propagation policy) say no core
operation panics, but `generate_world` panics on exactly the inputs the
claim names: a symbol table that lacks `"authority"`/`"ambient"` (the
`unwrap()` on `symbols.get`), and a token containing a fact with an empty
term list (the `ids[0]` indexing); `check` propagates the panic. -/
theorem C9_seeding_panics :
    Biscuit.generate_world tokEmpty SymbolTable.new = .panic ∧
    Biscuit.generate_world tokC9 default_symbol_table = .panic ∧
    Biscuit.check tokC9 default_symbol_table [] [] [] [] = .panic := by
  decide

/-! ## C2 — check accumulates all caveat failures -/

namespace Biscuit

theorem allCaveats_forall {t : Biscuit} {vc : List Caveat}
    {P : Caveat → Prop} :
    (∀ c ∈ allCaveats t vc, P c) ↔
    ((∀ c ∈ t.authority.caveats, P c) ∧ (∀ c ∈ vc, P c) ∧
      (∀ b ∈ t.blocks, ∀ c ∈ b.caveats, P c)) := by
  constructor
  · intro h
    refine ⟨fun c hc => h c ?_, fun c hc => h c ?_, fun b hb c hc => h c ?_⟩
    · exact List.mem_append.mpr (Or.inl (List.mem_append.mpr (Or.inl hc)))
    · exact List.mem_append.mpr (Or.inl (List.mem_append.mpr (Or.inr hc)))
    · exact List.mem_append.mpr (Or.inr (List.mem_flatMap.mpr ⟨b, hb, hc⟩))
  · rintro ⟨hA, hV, hB⟩ c hc
    rcases List.mem_append.mp hc with hc | hc
    · rcases List.mem_append.mp hc with hc | hc
      · exact hA c hc
      · exact hV c hc
    · obtain ⟨b, hb, hc⟩ := List.mem_flatMap.mp hc
      exact hB b hb c hc

theorem checkErrors_eq_nil {t : Biscuit} {vc : List Caveat} {world : World} :
    (authorityCaveatErrors world 0 t.authority.caveats ++
      verifierCaveatErrors world 0 vc ++
      blocksCaveatErrors world 0 t.blocks) = [] ↔
    ∀ c ∈ allCaveats t vc, caveatSuccessful world c = true := by
  rw [allCaveats_forall]
  simp only [List.append_eq_nil, authorityCaveatErrors_eq_nil,
    verifierCaveatErrors_eq_nil, blocksCaveatErrors_eq_nil]
  tauto

end Biscuit

/-- **C2.** For every token whose world seeding succeeds, `check` evaluates
every caveat of the authority block, every verifier caveat, and every
caveat of every appended block against the saturated world without
short-circuiting: it fails iff some caveat is unsatisfied, the returned
`FailedCaveats` list has exactly one entry per unsatisfied caveat across
all three groups, it returns the query results when every caveat is
satisfied, and a caveat is satisfied exactly when at least one of its
queries yields a non-empty result. -/
theorem C2_check_accumulates (t : Biscuit) (symbols : SymbolTable)
    (af : List Fact) (ar : List Rule) (vc : List Caveat)
    (qs : List (String × Rule)) (w0 : World)
    (h : t.generate_world symbols = .ok w0) :
    ((∃ l, t.check symbols af ar vc qs = .error (.FailedCaveats l)) ↔
      ∃ c ∈ Biscuit.allCaveats t vc,
        ¬ Biscuit.caveatSatisfied (Biscuit.buildCheckWorld w0 af ar) c)
    ∧ (∀ l, t.check symbols af ar vc qs = .error (.FailedCaveats l) →
        l.length = (Biscuit.allCaveats t vc).countP
          (fun c =>
            !Biscuit.caveatSuccessful (Biscuit.buildCheckWorld w0 af ar) c))
    ∧ ((∀ c ∈ Biscuit.allCaveats t vc,
          Biscuit.caveatSatisfied (Biscuit.buildCheckWorld w0 af ar) c) →
        t.check symbols af ar vc qs =
          .ok (qs.map (fun p =>
            (p.1, (Biscuit.buildCheckWorld w0 af ar).query_rule p.2))))
    ∧ (∀ c, Biscuit.caveatSatisfied (Biscuit.buildCheckWorld w0 af ar) c ↔
        Biscuit.caveatSuccessful (Biscuit.buildCheckWorld w0 af ar) c
          = true) := by
  rw [Biscuit.check_eq_of_ok h]
  refine ⟨?_, ?_, ?_, fun c => Biscuit.caveatSuccessful_iff.symm⟩
  · by_cases hE : (Biscuit.authorityCaveatErrors
        (Biscuit.buildCheckWorld w0 af ar) 0 t.authority.caveats ++
      Biscuit.verifierCaveatErrors (Biscuit.buildCheckWorld w0 af ar) 0 vc ++
      Biscuit.blocksCaveatErrors (Biscuit.buildCheckWorld w0 af ar) 0
        t.blocks) = []
    · rw [hE]
      constructor
      · rintro ⟨l, hl⟩
        exact absurd hl (by simp)
      · rintro ⟨c, hc, hsat⟩
        exact absurd (Biscuit.caveatSuccessful_iff.mp
          (Biscuit.checkErrors_eq_nil.mp hE c hc)) hsat
    · rw [if_neg (by simpa [List.isEmpty_iff] using hE)]
      constructor
      · intro _
        by_contra hall
        push_neg at hall
        exact hE (Biscuit.checkErrors_eq_nil.mpr (fun c hc =>
          Biscuit.caveatSuccessful_iff.mpr (hall c hc)))
      · intro _
        exact ⟨_, rfl⟩
  · intro l hl
    by_cases hE : (Biscuit.authorityCaveatErrors
        (Biscuit.buildCheckWorld w0 af ar) 0 t.authority.caveats ++
      Biscuit.verifierCaveatErrors (Biscuit.buildCheckWorld w0 af ar) 0 vc ++
      Biscuit.blocksCaveatErrors (Biscuit.buildCheckWorld w0 af ar) 0
        t.blocks) = []
    · rw [hE] at hl
      exact absurd hl (by simp)
    · rw [if_neg (by simpa [List.isEmpty_iff] using hE)] at hl
      have hEl : (Biscuit.authorityCaveatErrors
          (Biscuit.buildCheckWorld w0 af ar) 0 t.authority.caveats ++
        Biscuit.verifierCaveatErrors (Biscuit.buildCheckWorld w0 af ar)
          0 vc ++
        Biscuit.blocksCaveatErrors (Biscuit.buildCheckWorld w0 af ar) 0
          t.blocks) = l := by
        injection hl with h1
        injection h1
      subst hEl
      rw [List.length_append, List.length_append,
        Biscuit.length_authorityCaveatErrors,
        Biscuit.length_verifierCaveatErrors,
        Biscuit.length_blocksCaveatErrors, Biscuit.allCaveats,
        List.countP_append, List.countP_append]
  · intro hsat
    have hE : (Biscuit.authorityCaveatErrors
        (Biscuit.buildCheckWorld w0 af ar) 0 t.authority.caveats ++
      Biscuit.verifierCaveatErrors (Biscuit.buildCheckWorld w0 af ar) 0 vc ++
      Biscuit.blocksCaveatErrors (Biscuit.buildCheckWorld w0 af ar) 0
        t.blocks) = [] :=
      Biscuit.checkErrors_eq_nil.mpr (fun c hc =>
        Biscuit.caveatSuccessful_iff.mpr (hsat c hc))
    rw [hE]
    simp

/-- **C2 (witness).** The theorem applied to a concrete caveat-free token:
`check` returns the (empty) query results. -/
theorem C2_witness :
    Biscuit.check tokEmpty default_symbol_table [] [] [] [] = .ok [] := by
  have h : Biscuit.generate_world tokEmpty default_symbol_table =
      .ok ⟨[], []⟩ := by decide
  have := (C2_check_accumulates tokEmpty default_symbol_table [] [] [] []
      ⟨[], []⟩ h).2.2.1
    (by intro c hc; simp [Biscuit.allCaveats, tokEmpty, authEmpty] at hc)
  simpa using this

/-! ## C5 — block ids in caveat-failure reports -/

/-- **C5 (amended).** In `check`'s caveat-failure reports, authority-block
caveat failures carry `block_id = 0`, and failures of a caveat of the k-th
appended block (counted from 0, i.e. the block whose index field is `k+1`)
carry `block_id = k` — so the first appended block shares `block_id = 0`
with the authority block, and the claim's `block_id = i ≥ 1` numbering does
not hold.  Every reported entry identifies a real caveat at the stated
position. -/
theorem C5_block_id_reporting (t : Biscuit) (symbols : SymbolTable)
    (af : List Fact) (ar : List Rule) (vc : List Caveat)
    (qs : List (String × Rule)) (w0 : World) (l : List FailedCaveat)
    (h : t.generate_world symbols = .ok w0)
    (hc : t.check symbols af ar vc qs = .error (.FailedCaveats l)) :
    (∀ i c, t.authority.caveats[i]? = some c →
        Biscuit.caveatSuccessful (Biscuit.buildCheckWorld w0 af ar) c
          = false →
        FailedCaveat.Block 0 i c ∈ l)
    ∧ (∀ k b j c, t.blocks[k]? = some b → b.caveats[j]? = some c →
        Biscuit.caveatSuccessful (Biscuit.buildCheckWorld w0 af ar) c
          = false →
        FailedCaveat.Block k j c ∈ l)
    ∧ (∀ bid cid c, FailedCaveat.Block bid cid c ∈ l →
        ((bid = 0 ∧ t.authority.caveats[cid]? = some c ∧
            Biscuit.caveatSuccessful (Biscuit.buildCheckWorld w0 af ar) c
              = false) ∨
         (∃ b, t.blocks[bid]? = some b ∧ b.caveats[cid]? = some c ∧
            Biscuit.caveatSuccessful (Biscuit.buildCheckWorld w0 af ar) c
              = false))) := by
  rw [Biscuit.check_eq_of_ok h] at hc
  by_cases hE : (Biscuit.authorityCaveatErrors
      (Biscuit.buildCheckWorld w0 af ar) 0 t.authority.caveats ++
    Biscuit.verifierCaveatErrors (Biscuit.buildCheckWorld w0 af ar) 0 vc ++
    Biscuit.blocksCaveatErrors (Biscuit.buildCheckWorld w0 af ar) 0
      t.blocks) = []
  · rw [hE] at hc
    exact absurd hc (by simp)
  · rw [if_neg (by simpa [List.isEmpty_iff] using hE)] at hc
    have hEl : (Biscuit.authorityCaveatErrors
        (Biscuit.buildCheckWorld w0 af ar) 0 t.authority.caveats ++
      Biscuit.verifierCaveatErrors (Biscuit.buildCheckWorld w0 af ar)
        0 vc ++
      Biscuit.blocksCaveatErrors (Biscuit.buildCheckWorld w0 af ar) 0
        t.blocks) = l := by
      injection hc with h1
      injection h1
    subst hEl
    refine ⟨?_, ?_, ?_⟩
    · intro i c hget hfail
      refine List.mem_append.mpr (Or.inl (List.mem_append.mpr (Or.inl ?_)))
      exact Biscuit.mem_authorityCaveatErrors.mpr
        ⟨i, c, hget, hfail, by rw [Nat.zero_add]⟩
    · intro k b j c hgetb hgetc hfail
      refine List.mem_append.mpr (Or.inr ?_)
      refine Biscuit.mem_blocksCaveatErrors.mpr ⟨k, b, hgetb, ?_⟩
      exact Biscuit.mem_blockCaveatErrors.mpr
        ⟨j, c, hgetc, hfail, by rw [Nat.zero_add, Nat.zero_add]⟩
    · intro bid cid c hmem
      rcases List.mem_append.mp hmem with hmem | hmem
      · rcases List.mem_append.mp hmem with hmem | hmem
        · obtain ⟨j, c2, hget, hfail, he⟩ :=
            Biscuit.mem_authorityCaveatErrors.mp hmem
          rw [FailedCaveat.Block.injEq] at he
          obtain ⟨h0, hj, hcc⟩ := he
          subst hcc
          rw [Nat.zero_add] at hj
          subst hj
          exact Or.inl ⟨h0, hget, hfail⟩
        · obtain ⟨j, c2, _, _, he⟩ :=
            Biscuit.mem_verifierCaveatErrors.mp hmem
          exact absurd he (by simp)
      · obtain ⟨k, b, hgetb, hmem2⟩ :=
          Biscuit.mem_blocksCaveatErrors.mp hmem
        obtain ⟨j, c2, hgetc, hfail, he⟩ :=
          Biscuit.mem_blockCaveatErrors.mp hmem2
        rw [FailedCaveat.Block.injEq] at he
        obtain ⟨hbid, hj, hcc⟩ := he
        subst hcc
        rw [Nat.zero_add] at hbid hj
        subst hbid
        subst hj
        exact Or.inr ⟨b, hgetb, hgetc, hfail⟩

/-- **C5 (counterexample).** `tokC5`'s only caveat sits in its first
appended block, yet `check` reports it with `block_id = 0` (the enumerate
position), not `block_id = 1` as the claim's `i ≥ 1` numbering requires. -/
theorem C5_counterexample :
    cavEmpty ∈ blkC5.caveats ∧
    Biscuit.check tokC5 default_symbol_table [] [] [] [] =
      .error (.FailedCaveats [FailedCaveat.Block 0 0 cavEmpty]) ∧
    FailedCaveat.Block 0 0 cavEmpty ≠ FailedCaveat.Block 1 0 cavEmpty := by
  decide

/-- **C5 (witness).** The amended theorem applied to `tokC5`: the failing
caveat of appended block 0 is reported in the list as `Block 0 0`. -/
theorem C5_witness :
    FailedCaveat.Block 0 0 cavEmpty ∈ [FailedCaveat.Block 0 0 cavEmpty] :=
  (C5_block_id_reporting tokC5 default_symbol_table [] [] [] [] ⟨[], []⟩
      [FailedCaveat.Block 0 0 cavEmpty] (by decide) (by decide)).2.1
    0 blkC5 0 cavEmpty (by decide) (by decide) (by decide)

/-! ## C6 — verifier caveats are evaluated once -/

namespace Biscuit

theorem countP_isVerifierId_verifier_zero {world : World} {j : Nat} :
    ∀ {cs : List Caveat} {i : Nat}, j < i →
      (verifierCaveatErrors world i cs).countP (isVerifierId j) = 0 := by
  intro cs i hj
  rw [List.countP_eq_zero]
  intro e he
  obtain ⟨k, c, _, _, he⟩ := mem_verifierCaveatErrors.mp he
  subst he
  simp only [isVerifierId, beq_iff_eq]
  omega

theorem countP_isVerifierId_verifier_le_one {world : World} {j : Nat} :
    ∀ {cs : List Caveat} {i : Nat},
      (verifierCaveatErrors world i cs).countP (isVerifierId j) ≤ 1 := by
  intro cs
  induction cs with
  | nil => intro i; simp [verifierCaveatErrors]
  | cons c rest ih =>
    intro i
    unfold verifierCaveatErrors
    by_cases hs : caveatSuccessful world c
    · rw [if_pos hs]
      exact ih
    · rw [if_neg hs, List.countP_cons]
      by_cases hij : i = j
      · subst hij
        have h0 : (verifierCaveatErrors world (i + 1) rest).countP
            (isVerifierId i) = 0 :=
          countP_isVerifierId_verifier_zero (by omega)
        simp [h0, isVerifierId]
      · have h1 : isVerifierId j (FailedCaveat.Verifier i c) = false := by
          simp [isVerifierId, hij]
        rw [h1]
        simpa using ih

theorem countP_isVerifierId_authority_zero {world : World} {j i : Nat}
    {cs : List Caveat} :
    (authorityCaveatErrors world i cs).countP (isVerifierId j) = 0 := by
  rw [List.countP_eq_zero]
  intro e he
  obtain ⟨k, c, _, _, he⟩ := mem_authorityCaveatErrors.mp he
  subst he
  simp [isVerifierId]

theorem countP_isVerifierId_blocks_zero {world : World} {j i : Nat}
    {bs : List Block} :
    (blocksCaveatErrors world i bs).countP (isVerifierId j) = 0 := by
  rw [List.countP_eq_zero]
  intro e he
  obtain ⟨k, b, _, he2⟩ := mem_blocksCaveatErrors.mp he
  obtain ⟨m, c, _, _, he⟩ := mem_blockCaveatErrors.mp he2
  subst he
  simp [isVerifierId]

end Biscuit

/-- **C6.** The token-level `check` evaluates each verifier caveat exactly
once per call regardless of the number of blocks: any returned
`FailedCaveats` list contains at most one `Verifier` entry per verifier
caveat id. -/
theorem C6_verifier_caveats_once (t : Biscuit) (symbols : SymbolTable)
    (af : List Fact) (ar : List Rule) (vc : List Caveat)
    (qs : List (String × Rule)) (l : List FailedCaveat)
    (hc : t.check symbols af ar vc qs = .error (.FailedCaveats l)) :
    ∀ j, l.countP (isVerifierId j) ≤ 1 := by
  intro j
  cases hg : t.generate_world symbols with
  | panic =>
    unfold Biscuit.check at hc
    rw [hg] at hc
    exact absurd hc (by simp)
  | error e =>
    unfold Biscuit.check at hc
    rw [hg] at hc
    have he : e = .FailedCaveats l := by
      injection hc
    subst he
    exact absurd hg (Biscuit.generate_world_not_failedCaveats t symbols l)
  | ok w0 =>
    rw [Biscuit.check_eq_of_ok hg] at hc
    by_cases hE : (Biscuit.authorityCaveatErrors
        (Biscuit.buildCheckWorld w0 af ar) 0 t.authority.caveats ++
      Biscuit.verifierCaveatErrors (Biscuit.buildCheckWorld w0 af ar) 0 vc ++
      Biscuit.blocksCaveatErrors (Biscuit.buildCheckWorld w0 af ar) 0
        t.blocks) = []
    · rw [hE] at hc
      exact absurd hc (by simp)
    · rw [if_neg (by simpa [List.isEmpty_iff] using hE)] at hc
      have hEl : (Biscuit.authorityCaveatErrors
          (Biscuit.buildCheckWorld w0 af ar) 0 t.authority.caveats ++
        Biscuit.verifierCaveatErrors (Biscuit.buildCheckWorld w0 af ar)
          0 vc ++
        Biscuit.blocksCaveatErrors (Biscuit.buildCheckWorld w0 af ar) 0
          t.blocks) = l := by
        injection hc with h1
        injection h1
      subst hEl
      rw [List.countP_append, List.countP_append,
        Biscuit.countP_isVerifierId_authority_zero,
        Biscuit.countP_isVerifierId_blocks_zero]
      simpa using Biscuit.countP_isVerifierId_verifier_le_one

/-- **C6 (witness).** The theorem applied to a concrete token with one
failing verifier caveat. -/
theorem C6_witness :
    ([FailedCaveat.Verifier 0 cavEmpty].countP (isVerifierId 0)) ≤ 1 :=
  C6_verifier_caveats_once tokEmpty default_symbol_table [] [] [cavEmpty] []
    [FailedCaveat.Verifier 0 cavEmpty] (by decide) 0

/-! ## C3 — append -/

/-- **C3.** `append` fails with `Sealed` on a token without a signed
container; with a container it fails with `SymbolTableOverlap` when the
built block's symbol table intersects the accumulated table, with
`InvalidBlockIndex{expected, got}` when the block's index differs from
`1 + len(blocks)`, and otherwise returns a new token value with the block
appended and its symbols merged (the input token, a pure value, is
unchanged). -/
theorem C3_append (t : Biscuit) (kp : KeyPair) (b : Block) :
    (t.container = none → t.append kp b = .error .Sealed)
    ∧ (∀ c, t.container = some c →
        ¬ symbolsDisjoint t.symbols b.symbols →
        t.append kp b = .error .SymbolTableOverlap)
    ∧ (∀ c, t.container = some c →
        symbolsDisjoint t.symbols b.symbols →
        b.index ≠ 1 + t.blocks.length →
        t.append kp b =
          .error (.InvalidBlockIndex (1 + t.blocks.length) b.index))
    ∧ (∀ c, t.container = some c →
        symbolsDisjoint t.symbols b.symbols →
        b.index = 1 + t.blocks.length →
        t.append kp b = .ok
          { authority := t.authority
            blocks := t.blocks ++ [b]
            symbols := t.symbols.extend b.symbols
            container := some (c.append kp b) }) := by
  refine ⟨?_, ?_, ?_, ?_⟩
  · intro h
    unfold Biscuit.append
    rw [h]
    rfl
  · intro c h hdis
    unfold Biscuit.append
    rw [h]
    simp only [Option.isNone_some, Bool.false_eq_true, if_false]
    rw [if_pos hdis]
  · intro c h hdis hix
    unfold Biscuit.append
    rw [h]
    simp only [Option.isNone_some, Bool.false_eq_true, if_false]
    rw [if_neg (by simpa using hdis), if_pos hix]
  · intro c h hdis hix
    unfold Biscuit.append
    rw [h]
    simp only [Option.isNone_some, Bool.false_eq_true, if_false]
    rw [if_neg (by simpa using hdis), if_neg (by simpa using hix)]

/-- **C3 (witness).** The success case of the theorem applied to a concrete
token and block. -/
theorem C3_witness :
    Biscuit.append tokEmpty ⟨2⟩ blkApp = .ok
      { authority := authEmpty
        blocks := [blkApp]
        symbols := default_symbol_table.extend ⟨[]⟩
        container :=
          some ((SerializedBiscuit.new ⟨1⟩ authEmpty).append ⟨2⟩ blkApp) } :=
  (C3_append tokEmpty ⟨2⟩ blkApp).2.2.2 _ rfl (by decide) (by decide)

/-! ## C7 — sealed-state operations -/

/-- **C7.** On a token whose container is absent (the state `from_sealed`
produces): `append` fails with `Sealed` and `to_vec` fails with
`InternalError`; `verify_sealed` produces a verifier only when the
container is absent and fails with `InternalError` on a token that still
has a signed container; and `from_sealed_with_symbols` only produces
tokens without a container. -/
theorem C7_sealed_operations (t : Biscuit) (kp : KeyPair) (b : Block)
    (sc : SealedBiscuit) (syms : SymbolTable) :
    (t.container = none → t.append kp b = .error .Sealed)
    ∧ (t.container = none → t.to_vec = .error .InternalError)
    ∧ (∀ v, t.verify_sealed = .ok v → t.container = none)
    ∧ (∀ c, t.container = some c →
        t.verify_sealed = .error .InternalError)
    ∧ (∀ tok, Biscuit.from_sealed_with_symbols sc syms = .ok tok →
        tok.container = none) := by
  refine ⟨?_, ?_, ?_, ?_, ?_⟩
  · intro h
    unfold Biscuit.append
    rw [h]
    rfl
  · intro h
    unfold Biscuit.to_vec
    rw [h]
  · intro v hv
    unfold Biscuit.verify_sealed at hv
    cases hc : t.container with
    | none => rfl
    | some c =>
      rw [hc] at hv
      exact absurd hv (by simp)
  · intro c hc
    unfold Biscuit.verify_sealed
    rw [hc]
    rfl
  · intro tok htok
    unfold Biscuit.from_sealed_with_symbols at htok
    by_cases hix : sc.authority.index ≠ 0
    · rw [if_pos hix] at htok
      exact absurd htok (by simp)
    · rw [if_neg hix] at htok
      cases hdec : Biscuit.decodeBlocks 1 sc.blocks with
      | error e =>
        rw [hdec] at htok
        exact absurd htok (by simp)
      | ok bs =>
        rw [hdec] at htok
        dsimp only at htok
        cases htok
        rfl

/-- **C7 (witness).** The theorem applied to a concrete sealed-state
token. -/
theorem C7_witness :
    Biscuit.to_vec tokSealed = .error .InternalError :=
  (C7_sealed_operations tokSealed ⟨2⟩ blkApp ⟨authEmpty, []⟩
      default_symbol_table).2.1 rfl

/-! ## C8 — deserialization index discipline and symbol accumulation -/

namespace Biscuit

theorem decodeBlocks_error_shape {e : TokenError} :
    ∀ {bs : List Block} {i : Nat},
      decodeBlocks i bs = .error e →
      ∃ expected found, e = .InvalidBlockIndex expected found := by
  intro bs
  induction bs with
  | nil => intro i h; simp [decodeBlocks] at h
  | cons b rest ih =>
    intro i h
    unfold decodeBlocks at h
    by_cases hix : b.index ≠ i
    · rw [if_pos hix] at h
      cases h
      exact ⟨i, b.index, rfl⟩
    · rw [if_neg hix] at h
      cases hdec : decodeBlocks (i + 1) rest with
      | error e2 =>
        rw [hdec] at h
        cases h
        exact ih hdec
      | ok bs2 =>
        rw [hdec] at h
        exact absurd h (by simp [Except.map])

theorem decodeBlocks_ok_of :
    ∀ {bs : List Block} {i : Nat},
      (∀ k b, bs[k]? = some b → b.index = i + k) →
      decodeBlocks i bs = .ok bs := by
  intro bs
  induction bs with
  | nil => intro i _; rfl
  | cons b rest ih =>
    intro i hk
    unfold decodeBlocks
    have h0 : b.index = i := by simpa using hk 0 b (by simp)
    rw [if_neg (by simp [h0])]
    rw [ih (fun k b2 hb2 => by
      have := hk (k + 1) b2 (by simpa using hb2)
      omega)]
    rfl

theorem decodeBlocks_ok_elim :
    ∀ {bs bs' : List Block} {i : Nat},
      decodeBlocks i bs = .ok bs' →
      bs' = bs ∧ ∀ k b, bs[k]? = some b → b.index = i + k := by
  intro bs
  induction bs with
  | nil =>
    intro bs' i h
    cases h
    exact ⟨rfl, by simp⟩
  | cons b rest ih =>
    intro bs' i h
    unfold decodeBlocks at h
    by_cases hix : b.index ≠ i
    · rw [if_pos hix] at h
      exact absurd h (by simp)
    · rw [if_neg hix] at h
      cases hdec : decodeBlocks (i + 1) rest with
      | error e =>
        rw [hdec] at h
        exact absurd h (by simp [Except.map])
      | ok rest' =>
        rw [hdec] at h
        dsimp only [Except.map] at h
        cases h
        obtain ⟨hr, hk⟩ := ih hdec
        subst hr
        refine ⟨rfl, ?_⟩
        intro k b2 hb2
        cases k with
        | zero =>
          simp only [List.getElem?_cons_zero, Option.some.injEq] at hb2
          subst hb2
          omega
        | succ k =>
          simp only [List.getElem?_cons_succ] at hb2
          have := hk k b2 hb2
          omega

theorem decodeBlocks_error_of :
    ∀ {bs : List Block} {i : Nat},
      (∃ k b, bs[k]? = some b ∧ b.index ≠ i + k) →
      ∃ expected found, expected ≠ found ∧
        decodeBlocks i bs = .error (.InvalidBlockIndex expected found) := by
  intro bs
  induction bs with
  | nil =>
    intro i h
    obtain ⟨k, b, hb, _⟩ := h
    simp at hb
  | cons b rest ih =>
    intro i h
    unfold decodeBlocks
    by_cases hix : b.index ≠ i
    · exact ⟨i, b.index, fun hc => hix hc.symm, by rw [if_pos hix]⟩
    · rw [if_neg hix]
      push_neg at hix
      have h2 : ∃ k b2, rest[k]? = some b2 ∧ b2.index ≠ i + 1 + k := by
        obtain ⟨k, b2, hb2, hne⟩ := h
        cases k with
        | zero =>
          simp only [List.getElem?_cons_zero, Option.some.injEq] at hb2
          subst hb2
          omega
        | succ k =>
          simp only [List.getElem?_cons_succ] at hb2
          exact ⟨k, b2, hb2, by omega⟩
      obtain ⟨exp, fnd, hne, hdec⟩ := ih h2
      rw [hdec]
      exact ⟨exp, fnd, hne, rfl⟩

theorem foldl_extend_symbols :
    ∀ (bs : List Block) (s : SymbolTable),
      (bs.foldl (fun s b => s.extend b.symbols) s).symbols =
        s.symbols ++ bs.flatMap (fun b => b.symbols.symbols) := by
  intro bs
  induction bs with
  | nil => intro s; simp
  | cons b rest ih =>
    intro s
    rw [List.foldl_cons, ih]
    simp [SymbolTable.extend, List.append_assoc]

end Biscuit

/-- **C8.** Deserialization (signed and sealed paths alike) rejects an
authority block whose index is not 0 with `InvalidAuthorityIndex(got)`,
requires the k-th appended block (counted from 1) to carry index k —
returning `InvalidBlockIndex{expected, found}` with `expected ≠ found`
otherwise — and on success yields a token whose symbol table is the
supplied table extended by the authority block's symbols followed by each
block's symbols in block order. -/
theorem C8_deserialization (c : SerializedBiscuit) (sc : SealedBiscuit)
    (syms : SymbolTable) :
    ((c.authority.index ≠ 0 →
        Biscuit.from_with_symbols c syms =
          .error (.InvalidAuthorityIndex c.authority.index))
     ∧ (∀ tok, Biscuit.from_with_symbols c syms = .ok tok →
          tok.authority = c.authority ∧ tok.blocks = c.blocks ∧
          (∀ k b, c.blocks[k]? = some b → b.index = k + 1) ∧
          tok.symbols.symbols = syms.symbols ++
            c.authority.symbols.symbols ++
            c.blocks.flatMap (fun b => b.symbols.symbols))
     ∧ (c.authority.index = 0 →
          (∀ k b, c.blocks[k]? = some b → b.index = k + 1) →
          ∃ tok, Biscuit.from_with_symbols c syms = .ok tok)
     ∧ (c.authority.index = 0 →
          (∃ k b, c.blocks[k]? = some b ∧ b.index ≠ k + 1) →
          ∃ expected found, expected ≠ found ∧
            Biscuit.from_with_symbols c syms =
              .error (.InvalidBlockIndex expected found)))
    ∧ ((sc.authority.index ≠ 0 →
        Biscuit.from_sealed_with_symbols sc syms =
          .error (.InvalidAuthorityIndex sc.authority.index))
     ∧ (∀ tok, Biscuit.from_sealed_with_symbols sc syms = .ok tok →
          tok.authority = sc.authority ∧ tok.blocks = sc.blocks ∧
          (∀ k b, sc.blocks[k]? = some b → b.index = k + 1) ∧
          tok.symbols.symbols = syms.symbols ++
            sc.authority.symbols.symbols ++
            sc.blocks.flatMap (fun b => b.symbols.symbols))
     ∧ (sc.authority.index = 0 →
          (∀ k b, sc.blocks[k]? = some b → b.index = k + 1) →
          ∃ tok, Biscuit.from_sealed_with_symbols sc syms = .ok tok)
     ∧ (sc.authority.index = 0 →
          (∃ k b, sc.blocks[k]? = some b ∧ b.index ≠ k + 1) →
          ∃ expected found, expected ≠ found ∧
            Biscuit.from_sealed_with_symbols sc syms =
              .error (.InvalidBlockIndex expected found))) := by
  constructor
  · refine ⟨?_, ?_, ?_, ?_⟩
    · intro hix
      unfold Biscuit.from_with_symbols
      rw [if_pos hix]
    · intro tok htok
      unfold Biscuit.from_with_symbols at htok
      by_cases hix : c.authority.index ≠ 0
      · rw [if_pos hix] at htok
        exact absurd htok (by simp)
      · rw [if_neg hix] at htok
        cases hdec : Biscuit.decodeBlocks 1 c.blocks with
        | error e =>
          rw [hdec] at htok
          exact absurd htok (by simp)
        | ok bs =>
          rw [hdec] at htok
          dsimp only at htok
          cases htok
          obtain ⟨hbs, hk⟩ := Biscuit.decodeBlocks_ok_elim hdec
          subst hbs
          refine ⟨rfl, rfl, fun k b hb => by have := hk k b hb; omega, ?_⟩
          rw [Biscuit.foldl_extend_symbols]
          simp [SymbolTable.extend]
    · intro hix hk
      unfold Biscuit.from_with_symbols
      rw [if_neg (by omega)]
      rw [Biscuit.decodeBlocks_ok_of (fun k b hb => by
        have := hk k b hb
        omega)]
      exact ⟨_, rfl⟩
    · intro hix hbad
      unfold Biscuit.from_with_symbols
      rw [if_neg (by omega)]
      have h2 : ∃ k b, c.blocks[k]? = some b ∧ b.index ≠ 1 + k := by
        obtain ⟨k, b, hb, hne⟩ := hbad
        exact ⟨k, b, hb, by omega⟩
      obtain ⟨exp, fnd, hne, hdec⟩ := Biscuit.decodeBlocks_error_of h2
      rw [hdec]
      exact ⟨exp, fnd, hne, rfl⟩
  · refine ⟨?_, ?_, ?_, ?_⟩
    · intro hix
      unfold Biscuit.from_sealed_with_symbols
      rw [if_pos hix]
    · intro tok htok
      unfold Biscuit.from_sealed_with_symbols at htok
      by_cases hix : sc.authority.index ≠ 0
      · rw [if_pos hix] at htok
        exact absurd htok (by simp)
      · rw [if_neg hix] at htok
        cases hdec : Biscuit.decodeBlocks 1 sc.blocks with
        | error e =>
          rw [hdec] at htok
          exact absurd htok (by simp)
        | ok bs =>
          rw [hdec] at htok
          dsimp only at htok
          cases htok
          obtain ⟨hbs, hk⟩ := Biscuit.decodeBlocks_ok_elim hdec
          subst hbs
          refine ⟨rfl, rfl, fun k b hb => by have := hk k b hb; omega, ?_⟩
          rw [Biscuit.foldl_extend_symbols]
          simp [SymbolTable.extend]
    · intro hix hk
      unfold Biscuit.from_sealed_with_symbols
      rw [if_neg (by omega)]
      rw [Biscuit.decodeBlocks_ok_of (fun k b hb => by
        have := hk k b hb
        omega)]
      exact ⟨_, rfl⟩
    · intro hix hbad
      unfold Biscuit.from_sealed_with_symbols
      rw [if_neg (by omega)]
      have h2 : ∃ k b, sc.blocks[k]? = some b ∧ b.index ≠ 1 + k := by
        obtain ⟨k, b, hb, hne⟩ := hbad
        exact ⟨k, b, hb, by omega⟩
      obtain ⟨exp, fnd, hne, hdec⟩ := Biscuit.decodeBlocks_error_of h2
      rw [hdec]
      exact ⟨exp, fnd, hne, rfl⟩

/-- **C8 (witness).** The success case of the theorem applied to a concrete
well-indexed container. -/
theorem C8_witness :
    ∃ tok, Biscuit.from_with_symbols contC8 default_symbol_table =
      .ok tok :=
  (C8_deserialization contC8 scC8 default_symbol_table).1.2.2.1 (by decide)
    (by
      intro k b hb
      cases k with
      | zero =>
        simp only [contC8, List.getElem?_cons_zero, Option.some.injEq] at hb
        subst hb
        rfl
      | succ k => simp [contC8] at hb)

/-! ## C4 — symbol-table overlap rejection -/

/-- **C4 (amended).** A block introducing a symbol already present in the
accumulated symbol table is rejected with `SymbolTableOverlap` at
construction (`new`) and at `append`; the deserialization paths perform no
disjointness check at all — they can never return `SymbolTableOverlap`, and
a decoded token may therefore carry a duplicated string in its merged
table. -/
theorem C4_symbol_overlap (root : KeyPair) (syms : SymbolTable)
    (authority : Block) (t : Biscuit) (kp : KeyPair) (b : Block)
    (c0 : SerializedBiscuit) (sc : SealedBiscuit) (syms2 : SymbolTable) :
    (¬ symbolsDisjoint syms authority.symbols →
      Biscuit.new root syms authority = .error .SymbolTableOverlap)
    ∧ (∀ c, t.container = some c →
        ¬ symbolsDisjoint t.symbols b.symbols →
        t.append kp b = .error .SymbolTableOverlap)
    ∧ (Biscuit.from_with_symbols c0 syms2 ≠ .error .SymbolTableOverlap)
    ∧ (Biscuit.from_sealed_with_symbols sc syms2 ≠
        .error .SymbolTableOverlap) := by
  refine ⟨?_, ?_, ?_, ?_⟩
  · intro h
    unfold Biscuit.new
    rw [if_pos h]
  · intro c hc hdis
    unfold Biscuit.append
    rw [hc]
    simp only [Option.isNone_some, Bool.false_eq_true, if_false]
    rw [if_pos hdis]
  · intro h
    unfold Biscuit.from_with_symbols at h
    by_cases hix : c0.authority.index ≠ 0
    · rw [if_pos hix] at h
      exact absurd h (by simp)
    · rw [if_neg hix] at h
      cases hdec : Biscuit.decodeBlocks 1 c0.blocks with
      | error e =>
        rw [hdec] at h
        obtain ⟨exp, fnd, he⟩ := Biscuit.decodeBlocks_error_shape hdec
        subst he
        exact absurd h (by simp)
      | ok bs =>
        rw [hdec] at h
        exact absurd h (by simp)
  · intro h
    unfold Biscuit.from_sealed_with_symbols at h
    by_cases hix : sc.authority.index ≠ 0
    · rw [if_pos hix] at h
      exact absurd h (by simp)
    · rw [if_neg hix] at h
      cases hdec : Biscuit.decodeBlocks 1 sc.blocks with
      | error e =>
        rw [hdec] at h
        obtain ⟨exp, fnd, he⟩ := Biscuit.decodeBlocks_error_shape hdec
        subst he
        exact absurd h (by simp)
      | ok bs =>
        rw [hdec] at h
        exact absurd h (by simp)

/-- **C4 (counterexample).** Deserializing `contC4` — whose authority block
re-introduces the predefined symbol `"authority"` — is *accepted* (no
`SymbolTableOverlap`), and the accepted token's merged table carries
`"authority"` twice, contradicting the claim for the deserialization
path. -/
theorem C4_counterexample :
    Biscuit.from_with_symbols contC4 default_symbol_table = .ok tokC4dup ∧
    tokC4dup.symbols.symbols.count "authority" = 2 :=
  ⟨rfl, by decide⟩

/-- **C4 (witness).** The amended theorem applied to a concrete overlapping
authority block at construction. -/
theorem C4_witness :
    Biscuit.new ⟨1⟩ default_symbol_table authOverlap =
      .error .SymbolTableOverlap :=
  (C4_symbol_overlap ⟨1⟩ default_symbol_table authOverlap tokEmpty ⟨2⟩
      blkApp contC4 scC8 default_symbol_table).1 (by decide)

/-! ## C10 — the privilege gate is enforced only at authorization time -/

/-- **C10.** The authority/ambient gate is not enforced at construction:
given index and symbol-disjointness validity, `Biscuit::new` accepts an
authority block regardless of its facts and `append` accepts a block
regardless of its facts and rules, the result is serializable, and a
tagging violation (an ambient-tagged authority fact, or an authority- or
ambient-tagged fact or rule head in the appended block) surfaces only when
`check` builds the world: `generate_world` then never succeeds. -/
theorem C10_gate_only_at_check (root : KeyPair) (syms : SymbolTable)
    (authority : Block) (kp : KeyPair) (block : Block)
    (symbols2 : SymbolTable) (ai mi : Nat)
    (hd1 : symbolsDisjoint syms authority.symbols)
    (hi1 : authority.index = 0)
    (hd2 : symbolsDisjoint (syms.extend authority.symbols) block.symbols)
    (hi2 : block.index = 1)
    (ha : symbols2.get "authority" = some ai)
    (hm : symbols2.get "ambient" = some mi)
    (hoff : (∃ f ∈ authority.facts, factTagged mi f) ∨
      (∃ f ∈ block.facts, factTagged ai f ∨ factTagged mi f) ∨
      (∃ r ∈ block.rules, ruleTagged ai r ∨ ruleTagged mi r)) :
    ∃ t1 t2, Biscuit.new root syms authority = .ok t1 ∧
      t1.append kp block = .ok t2 ∧
      (∃ c, t2.to_vec = .ok c) ∧
      (∀ w, t2.generate_world symbols2 ≠ .ok w) := by
  refine ⟨{ authority := authority, blocks := [],
            symbols := syms.extend authority.symbols,
            container := some (SerializedBiscuit.new root authority) },
          { authority := authority, blocks := [block],
            symbols := (syms.extend authority.symbols).extend block.symbols,
            container := some
              ((SerializedBiscuit.new root authority).append kp block) },
          ?_, ?_, ?_, ?_⟩
  · unfold Biscuit.new
    rw [if_neg (by simpa using hd1), if_neg (by simp [hi1])]
  · unfold Biscuit.append
    simp only [Option.isNone_some, Bool.false_eq_true, if_false]
    rw [if_neg (by simpa using hd2)]
    rw [if_neg (by simp [hi2])]
    exact rfl
  · exact ⟨_, rfl⟩
  · intro w hw
    obtain ⟨hcleanA, hcleanB⟩ := Biscuit.generate_world_ok_clean ha hm hw
    rcases hoff with ⟨f, hf, htag⟩ | ⟨f, hf, htag⟩ | ⟨r, hr, htag⟩
    · exact (hcleanA f hf) htag
    · have hb := hcleanB block (by simp)
      rcases htag with htag | htag
      · exact (hb.1 f hf).1 htag
      · exact (hb.1 f hf).2 htag
    · have hb := hcleanB block (by simp)
      rcases htag with htag | htag
      · exact (hb.2 r hr).1 htag
      · exact (hb.2 r hr).2 htag

/-- **C10 (witness).** The theorem applied to a concrete authority block
carrying an ambient-tagged fact: construction, append and serialization
succeed, and only world seeding rejects the token. -/
theorem C10_witness :
    ∃ t1 t2, Biscuit.new ⟨1⟩ default_symbol_table authAmb = .ok t1 ∧
      t1.append ⟨2⟩ blkApp = .ok t2 ∧
      (∃ c, t2.to_vec = .ok c) ∧
      (∀ w, t2.generate_world default_symbol_table ≠ .ok w) :=
  C10_gate_only_at_check ⟨1⟩ default_symbol_table authAmb ⟨2⟩ blkApp
    default_symbol_table 0 1 (by decide) (by decide) (by decide) (by decide)
    (by decide) (by decide) (Or.inl ⟨factAmbTagged, by decide, by decide⟩)

end Token